import Mathlib

/-!
Verification of the brewlock lock-file reconciliation engine.

The definitions below are a shallow embedding of the TypeScript sources:
`types.ts` (the zod schemas), `lock-manager.ts` (the JSONC codec and the
upsert / remove / generate / check operations), `version-resolver.ts`
(live-version queries) and `bundle-install.ts` (the replay engine, in both
its mapping-based and entry-list-based generations).

JavaScript objects keyed by package name are embedded as insertion-ordered
association lists `List (String × α)`: property read is `List.lookup`,
property write is `objInsert` (update in place when the key exists,
append otherwise, exactly as JS object spread with a computed key), and
property delete is `objRemove`.  External collaborators (the brew CLI, the
`mas` CLI) are a record of oracles `Env`; invocations of the install
primitives are reified as an `Action` trace so that "the install primitive
is not invoked" is a provable statement.  JSON numbers are embedded as
`Int` (every number the engine itself produces is an integer).
-/

set_option maxHeartbeats 1000000

/-- The four package kinds of `types.ts` (`PackageType`). -/
inductive PackageType where
  | tap
  | brew
  | cask
  | mas
deriving DecidableEq

/-- `TapEntrySchema` of `types.ts`: all fields optional. -/
structure TapEntry where
  url : Option String := none
  commit : Option String := none
  official : Option Bool := none
deriving DecidableEq

/-- `BrewEntrySchema` of `types.ts`: required `version`, optional metadata. -/
structure BrewEntry where
  version : String
  installed : Option (List String) := none
  revision : Option Int := none
  tap : Option String := none
  pinned : Option Bool := none
  dependencies : Option (List String) := none
  sha256 : Option String := none
  installed_as_dependency : Option Bool := none
  installed_on_request : Option Bool := none
deriving DecidableEq

/-- `CaskEntrySchema` of `types.ts`. -/
structure CaskEntry where
  version : String
  tap : Option String := none
  sha256 : Option String := none
  auto_updates : Option Bool := none
deriving DecidableEq

/-- `MasEntrySchema` of `types.ts`: required numeric id and version. -/
structure MasEntry where
  id : Int
  version : String
deriving DecidableEq

/-- `LockFileSchema` of `types.ts`: format version plus the four
name-keyed mappings, embedded as insertion-ordered association lists. -/
structure LockFile where
  version : Int
  tap : List (String × TapEntry)
  brew : List (String × BrewEntry)
  cask : List (String × CaskEntry)
  mas : List (String × MasEntry)
deriving DecidableEq

/-- `createEmptyLockFile` of `lock-manager.ts` (`LOCK_VERSION = 1`). -/
def createEmptyLockFile : LockFile :=
  { version := 1, tap := [], brew := [], cask := [], mas := [] }

/-- JS object write `{...obj, [name]: entry}`: when `name` is already a key
the value is replaced at its original position, otherwise the pair is
appended (JS insertion order). -/
def objInsert (l : List (String × α)) (name : String) (entry : α) :
    List (String × α) :=
  if (l.lookup name).isSome then
    l.map (fun p => if p.1 == name then (name, entry) else p)
  else
    l ++ [(name, entry)]

/-- JS object delete via rest-destructuring `{[name]: _, ...rest}`. -/
def objRemove (l : List (String × α)) (name : String) : List (String × α) :=
  l.filter (fun p => !(p.1 == name))

/-- `upsertTap` of `lock-manager.ts`. -/
def upsertTap (lockFile : LockFile) (name : String) (entry : TapEntry) :
    LockFile :=
  { lockFile with tap := objInsert lockFile.tap name entry }

/-- `upsertBrew` of `lock-manager.ts`. -/
def upsertBrew (lockFile : LockFile) (name : String) (entry : BrewEntry) :
    LockFile :=
  { lockFile with brew := objInsert lockFile.brew name entry }

/-- `upsertCask` of `lock-manager.ts`. -/
def upsertCask (lockFile : LockFile) (name : String) (entry : CaskEntry) :
    LockFile :=
  { lockFile with cask := objInsert lockFile.cask name entry }

/-- `upsertMas` of `lock-manager.ts`. -/
def upsertMas (lockFile : LockFile) (name : String) (entry : MasEntry) :
    LockFile :=
  { lockFile with mas := objInsert lockFile.mas name entry }

/-- `removeTap` of `lock-manager.ts`. -/
def removeTap (lockFile : LockFile) (name : String) : LockFile :=
  { lockFile with tap := objRemove lockFile.tap name }

/-- `removeBrew` of `lock-manager.ts`. -/
def removeBrew (lockFile : LockFile) (name : String) : LockFile :=
  { lockFile with brew := objRemove lockFile.brew name }

/-- `removeCask` of `lock-manager.ts`. -/
def removeCask (lockFile : LockFile) (name : String) : LockFile :=
  { lockFile with cask := objRemove lockFile.cask name }

/-- `removeMas` of `lock-manager.ts`. -/
def removeMas (lockFile : LockFile) (name : String) : LockFile :=
  { lockFile with mas := objRemove lockFile.mas name }

/-- `removeEntry` of `lock-manager.ts`: dispatch on the kind. -/
def removeEntry (lockFile : LockFile) (type : PackageType) (name : String) :
    LockFile :=
  match type with
  | .tap => removeTap lockFile name
  | .brew => removeBrew lockFile name
  | .cask => removeCask lockFile name
  | .mas => removeMas lockFile name

/-- The metadata record type carried by each kind. -/
def KindEntry : PackageType → Type
  | .tap => TapEntry
  | .brew => BrewEntry
  | .cask => CaskEntry
  | .mas => MasEntry

/-- Kind-indexed upsert, dispatching to the four upsert functions of
`lock-manager.ts`. -/
def upsertEntry (lockFile : LockFile) :
    (k : PackageType) → String → KindEntry k → LockFile
  | .tap, name, entry => upsertTap lockFile name entry
  | .brew, name, entry => upsertBrew lockFile name entry
  | .cask, name, entry => upsertCask lockFile name entry
  | .mas, name, entry => upsertMas lockFile name entry

/-- Kind-indexed property read on a lock document. -/
def lookupEntry (lockFile : LockFile) :
    (k : PackageType) → String → Option (KindEntry k)
  | .tap, name => lockFile.tap.lookup name
  | .brew, name => lockFile.brew.lookup name
  | .cask, name => lockFile.cask.lookup name
  | .mas, name => lockFile.mas.lookup name

/-- One line of `mas list` output as parsed by `getMasApps` of
`version-resolver.ts`: app-store id, app name, installed version. -/
structure MasApp where
  name : String
  version : String
  id : Int
deriving DecidableEq

/-- The external collaborators, as oracles.  `formulaVersion` and
`caskVersion` are `getFormulaVersion` / `getCaskVersion` (themselves thin
JSON wrappers over `brew info`, returning `null` on any failure);
`masApps` is the parsed `mas list` output; `taps` is `getAllTaps`;
`runBrew` is the success flag of `executeBrewCommandStreaming` on the given
argument vector; `runMas` is the success flag of spawning
`mas install <id>`. -/
structure Env where
  formulaVersion : String → Option String
  caskVersion : String → Option String
  masApps : List MasApp
  taps : List String
  runBrew : List String → Bool
  runMas : Int → Bool

/-- JS `toLowerCase`, as a kernel-computable character map. -/
def jsToLower (s : String) : String :=
  String.mk (s.data.map Char.toLower)

/-- `getPackageVersion` of `version-resolver.ts`: formulae and casks are
queried by the name exactly as given; taps have no version; mas apps are
looked up in the `mas list` output by case-insensitive name comparison. -/
def getPackageVersion (env : Env) (type : PackageType) (name : String) :
    Option String :=
  match type with
  | .brew => env.formulaVersion name
  | .cask => env.caskVersion name
  | .tap => none
  | .mas =>
      (env.masApps.find? (fun a => jsToLower a.name == jsToLower name)).map
        (fun a => a.version)

/-- One element of the `mismatches` array built by `checkLockFile` of
`lock-manager.ts`: the recorded name, the recorded (expected) version and
the live (actual) version, `none` when the package is not installed.
The implementation records no kind discriminator. -/
structure Mismatch where
  name : String
  expected : String
  actual : Option String
deriving DecidableEq

/-- The result record of `checkLockFile`; the field `matches` of the
source is spelled `matched` here because `matches` is a Lean keyword. -/
structure CheckResult where
  matched : Bool
  mismatches : List Mismatch
deriving DecidableEq

/-- The loop body shared by the three sections of `checkLockFile`: for each
entry, query the live version and push a mismatch when it is not strictly
equal to the recorded version. -/
def checkSection (env : Env) (type : PackageType) (versionOf : α → String)
    (l : List (String × α)) : List Mismatch :=
  l.filterMap (fun p =>
    let actualVersion := getPackageVersion env type p.1
    if actualVersion ≠ some (versionOf p.2) then
      some { name := p.1, expected := versionOf p.2, actual := actualVersion }
    else
      none)

/-- `checkLockFile` of `lock-manager.ts` (JSONC generation): walk the brew,
cask and mas mappings in order (taps carry no version and are not walked),
collect mismatches, and report `matches` iff none were collected.  The
document is the parsed content of the lock file at the given path. -/
def checkLockFile (env : Env) (lockFile : LockFile) : CheckResult :=
  let mismatches :=
    checkSection env .brew (fun e => e.version) lockFile.brew ++
    checkSection env .cask (fun e => e.version) lockFile.cask ++
    checkSection env .mas (fun e => e.version) lockFile.mas
  { matched := mismatches.length == 0, mismatches := mismatches }

/-- An invocation of an install primitive during replay: a
`executeBrewCommandStreaming` call with its argument vector, or a
`mas install <id>` spawn. -/
inductive PrimCall where
  | brewCmd (args : List String)
  | masCmd (id : Int)
deriving DecidableEq

/-- `installTap` of `bundle-install.ts` (mapping generation): skip when the
tap is already registered, otherwise run `brew tap <name> [url]`, passing
the recorded url only when it is truthy (present and nonempty). -/
def installTap (env : Env) (name : String) (entry : TapEntry) :
    Bool × List PrimCall :=
  if env.taps.contains name then
    (true, [])
  else
    let args :=
      match entry.url with
      | some url => if url = "" then ["tap", name] else ["tap", name, url]
      | none => ["tap", name]
    (env.runBrew args, [PrimCall.brewCmd args])

/-- `installBrew` of `bundle-install.ts` (mapping generation): skip when the
live version equals the recorded one; on a mismatch with a live version
present, warn and fail in strict mode; otherwise run `brew install <name>`. -/
def installBrew (env : Env) (name : String) (entry : BrewEntry)
    (strict : Bool) : Bool × List PrimCall :=
  let currentVersion := getPackageVersion env .brew name
  if currentVersion = some entry.version then
    (true, [])
  else if currentVersion.isSome && strict then
    (false, [])
  else
    (env.runBrew ["install", name], [PrimCall.brewCmd ["install", name]])

/-- `installCask` of `bundle-install.ts` (mapping generation): as
`installBrew`, with `brew install --cask <name>`. -/
def installCask (env : Env) (name : String) (entry : CaskEntry)
    (strict : Bool) : Bool × List PrimCall :=
  let currentVersion := getPackageVersion env .cask name
  if currentVersion = some entry.version then
    (true, [])
  else if currentVersion.isSome && strict then
    (false, [])
  else
    (env.runBrew ["install", "--cask", name],
     [PrimCall.brewCmd ["install", "--cask", name]])

/-- `installMas` of `bundle-install.ts` (mapping generation): as
`installBrew`, with `mas install <id>`. -/
def installMas (env : Env) (name : String) (entry : MasEntry)
    (strict : Bool) : Bool × List PrimCall :=
  let currentVersion := getPackageVersion env .mas name
  if currentVersion = some entry.version then
    (true, [])
  else if currentVersion.isSome && strict then
    (false, [])
  else
    (env.runMas entry.id, [PrimCall.masCmd entry.id])

/-- One `for` loop of `bundleInstall` over a section: run the per-entry
installer on each entry in order, conjoin the successes, concatenate the
invocation traces, and report whether a strict-mode failure aborted the
loop (in which case the remaining entries are not reached). -/
def runSection (installOne : String → α → Bool × List PrimCall)
    (strict : Bool) : List (String × α) → Bool × List PrimCall × Bool
  | [] => (true, [], false)
  | (name, entry) :: rest =>
      let r := installOne name entry
      if !r.1 && strict then
        (false, r.2, true)
      else
        let k := runSection installOne strict rest
        (r.1 && k.1, r.2 ++ k.2.1, k.2.2)

/-- `bundleInstall` of `bundle-install.ts` (mapping generation): nothing to
do on an empty document; otherwise process taps, then formulae, then casks,
then mas apps, tracking `allSuccess` and returning `false` immediately on
the first failure in strict mode. -/
def bundleInstall (env : Env) (lockFile : LockFile) (strict : Bool) :
    Bool × List PrimCall :=
  if lockFile.tap.isEmpty && lockFile.brew.isEmpty &&
      lockFile.cask.isEmpty && lockFile.mas.isEmpty then
    (true, [])
  else
    let t := runSection (fun n e => installTap env n e) strict lockFile.tap
    if t.2.2 then (false, t.2.1) else
    let b := runSection (fun n e => installBrew env n e strict) strict
      lockFile.brew
    if b.2.2 then (false, t.2.1 ++ b.2.1) else
    let c := runSection (fun n e => installCask env n e strict) strict
      lockFile.cask
    if c.2.2 then (false, t.2.1 ++ b.2.1 ++ c.2.1) else
    let m := runSection (fun n e => installMas env n e strict) strict
      lockFile.mas
    if m.2.2 then (false, t.2.1 ++ b.2.1 ++ c.2.1 ++ m.2.1) else
    (t.1 && b.1 && c.1 && m.1, t.2.1 ++ b.2.1 ++ c.2.1 ++ m.2.1)

/-- A line of the entry-list lock format (`LockEntry` of the earlier
`types.ts` generation): kind, name, optional version, optional mas id. -/
structure LockEntry where
  type : PackageType
  name : String
  version : Option String := none
  id : Option Int := none
deriving DecidableEq

/-- JS strict equality `===` between `currentVersion : string | null` and
`entry.version : string | undefined`: true only when both are strings and
equal (`null === undefined` is false). -/
def jsEqOpt : Option String → Option String → Bool
  | some a, some b => a == b
  | _, _ => false

/-- `installEntry` of `bundle-install.ts` (entry-list generation): taps are
registered by presence; versioned kinds skip on strict equality of live and
recorded versions, fail in strict mode when an installed live version is
not strictly equal to the recorded one, and otherwise dispatch on the kind,
where a mas entry with a falsy id (absent or zero) is a failure without
invoking any primitive. -/
def installEntry (env : Env) (entry : LockEntry) (strict : Bool) :
    Bool × List PrimCall :=
  let currentVersion := getPackageVersion env entry.type entry.name
  if entry.type = .tap then
    if env.taps.contains entry.name then
      (true, [])
    else
      (env.runBrew ["tap", entry.name], [PrimCall.brewCmd ["tap", entry.name]])
  else if jsEqOpt currentVersion entry.version then
    (true, [])
  else if currentVersion.isSome && !jsEqOpt currentVersion entry.version &&
      strict then
    (false, [])
  else
    match entry.type with
    | .brew =>
        (env.runBrew ["install", entry.name],
         [PrimCall.brewCmd ["install", entry.name]])
    | .cask =>
        (env.runBrew ["install", "--cask", entry.name],
         [PrimCall.brewCmd ["install", "--cask", entry.name]])
    | .mas =>
        match entry.id with
        | some id =>
            if id = 0 then (false, [])
            else (env.runMas id, [PrimCall.masCmd id])
        | none => (false, [])
    | .tap => (false, [])

/-- The taps reported by `getAllTapsWithInfo` of `version-resolver.ts`. -/
structure TapInfo where
  name : String
  url : Option String := none
  commit : Option String := none
  official : Option Bool := none

/-- The formulae reported by `getAllInstalledFormulae`. -/
structure FormulaInfo where
  name : String
  version : String
  installed : Option (List String) := none
  revision : Option Int := none
  tap : Option String := none
  pinned : Option Bool := none
  dependencies : Option (List String) := none
  sha256 : Option String := none
  installed_as_dependency : Option Bool := none
  installed_on_request : Option Bool := none

/-- The casks reported by `getAllInstalledCasks`. -/
structure CaskInfo where
  name : String
  version : String
  tap : Option String := none
  sha256 : Option String := none
  auto_updates : Option Bool := none

/-- The full-system snapshot consumed by `generateLockFile`. -/
structure GenEnv where
  taps : List TapInfo
  formulae : List FormulaInfo
  casks : List CaskInfo
  masApps : List MasApp

/-- The tap entry assembled by `generateLockFile`: each field is copied
under a JS truthiness test, so an empty url or commit and a false or absent
official flag are omitted. -/
def genTapEntry (t : TapInfo) : TapEntry :=
  { url := match t.url with
      | some u => if u = "" then none else some u
      | none => none
    commit := match t.commit with
      | some c => if c = "" then none else some c
      | none => none
    official := match t.official with
      | some true => some true
      | _ => none }

/-- The brew entry assembled by `generateLockFile`: `version` is required,
every other field is copied only when defined (`!== undefined`). -/
def genBrewEntry (f : FormulaInfo) : BrewEntry :=
  { version := f.version
    installed := f.installed
    revision := f.revision
    tap := f.tap
    pinned := f.pinned
    dependencies := f.dependencies
    sha256 := f.sha256
    installed_as_dependency := f.installed_as_dependency
    installed_on_request := f.installed_on_request }

/-- The cask entry assembled by `generateLockFile`. -/
def genCaskEntry (c : CaskInfo) : CaskEntry :=
  { version := c.version
    tap := c.tap
    sha256 := c.sha256
    auto_updates := c.auto_updates }

/-- `generateLockFile` of `lock-manager.ts` (JSONC generation): start from
the empty document and assign one entry per reported tap, formula, cask and
mas app, in order (JS property assignment is `objInsert`). -/
def generateLockFile (genv : GenEnv) : LockFile :=
  { version := 1
    tap := genv.taps.foldl
      (fun acc t => objInsert acc t.name (genTapEntry t)) []
    brew := genv.formulae.foldl
      (fun acc f => objInsert acc f.name (genBrewEntry f)) []
    cask := genv.casks.foldl
      (fun acc c => objInsert acc c.name (genCaskEntry c)) []
    mas := genv.masApps.foldl
      (fun acc a => objInsert acc a.name ⟨a.id, a.version⟩) [] }

/-- The versioned entries of a document in check order: every brew, cask
and mas entry with its kind, name and recorded version (taps carry no
version and are skipped). -/
def versionedEntries (d : LockFile) : List (PackageType × String × String) :=
  d.brew.map (fun p => (.brew, p.1, p.2.version)) ++
  d.cask.map (fun p => (.cask, p.1, p.2.version)) ++
  d.mas.map (fun p => (.mas, p.1, p.2.version))

/-- Specification-level drift list: one mismatch per versioned entry whose
live version is absent or differs, with `actual` the live version itself. -/
def driftMismatches (env : Env) (d : LockFile) : List Mismatch :=
  (versionedEntries d).filterMap (fun x =>
    let actual := getPackageVersion env x.1 x.2.1
    if actual ≠ some x.2.2 then
      some { name := x.2.1, expected := x.2.2, actual := actual }
    else
      none)

/-- The per-entry outcomes of a replay, in phase order (taps, formulae,
casks, mas apps), each with its primitive-invocation trace. -/
def entryRuns (env : Env) (strict : Bool) (d : LockFile) :
    List (Bool × List PrimCall) :=
  d.tap.map (fun p => installTap env p.1 p.2) ++
  d.brew.map (fun p => installBrew env p.1 p.2 strict) ++
  d.cask.map (fun p => installCask env p.1 p.2 strict) ++
  d.mas.map (fun p => installMas env p.1 p.2 strict)

/-- Every per-entry outcome is a success. -/
def allOk (rs : List (Bool × List PrimCall)) : Bool :=
  rs.all (fun r => r.1)

/-- Concatenation of every outcome trace: what a best-effort replay
invokes. -/
def fullTrace (rs : List (Bool × List PrimCall)) : List PrimCall :=
  rs.foldr (fun r acc => r.2 ++ acc) []

/-- Trace of a fail-fast replay: concatenate traces up to and including the
first failed outcome and drop everything after it. -/
def strictTrace : List (Bool × List PrimCall) → List PrimCall
  | [] => []
  | r :: rest => if r.1 then r.2 ++ strictTrace rest else r.2

/-- No key occurs twice, as JS objects guarantee for their properties. -/
def nodupKeys : List (String × α) → Bool
  | [] => true
  | (k, _) :: rest => (rest.lookup k).isNone && nodupKeys rest

/-- A lock document whose four mappings are genuine JS objects: no
duplicate names within a kind. -/
def lockFileWF (d : LockFile) : Bool :=
  nodupKeys d.tap && nodupKeys d.brew && nodupKeys d.cask && nodupKeys d.mas

/-- An environment with no installed packages and failing primitives. -/
def envEmpty : Env :=
  { formulaVersion := fun _ => none
    caskVersion := fun _ => none
    masApps := []
    taps := []
    runBrew := fun _ => false
    runMas := fun _ => false }

/-- An environment whose only installed package is the mas app Xcode at
version 15.2. -/
def envXcode : Env :=
  { envEmpty with masApps := [⟨"Xcode", "15.2", 497799835⟩] }

/-- An environment where the formula `x` is installed at version `2.0`. -/
def envDriftX : Env :=
  { envEmpty with formulaVersion := fun n => if n == "x" then some "2.0" else none }

/-- An environment where the formula and the cask `git` are installed at
version 2.43.0 and the mas app Xcode at 15.2. -/
def envGit : Env :=
  { envEmpty with
    formulaVersion := fun n => if n == "git" then some "2.43.0" else none
    caskVersion := fun n => if n == "git" then some "2.43.0" else none
    masApps := [⟨"Xcode", "15.2", 1⟩] }

/-- A document tracking only the formula `x` at version `1.0`. -/
def docBrewX : LockFile :=
  { version := 1, tap := [], brew := [("x", { version := "1.0" })],
    cask := [], mas := [] }

/-- A document tracking only the cask `x` at version `1.0`. -/
def docCaskX : LockFile :=
  { version := 1, tap := [], brew := [],
    cask := [("x", { version := "1.0" })], mas := [] }

/-- A concrete brew record used by witnesses. -/
def brGit : BrewEntry := { version := "2.43.0" }

/-- An entry-list line for the mas app Xcode with a recorded version and no
app-store id. -/
def masNoId : LockEntry := { type := .mas, name := "Xcode", version := some "15.2" }

/-- As `masNoId`, with a recorded version that differs from the live one. -/
def masNoIdDrift : LockEntry :=
  { type := .mas, name := "Xcode", version := some "15.3" }

/-! ### The lock-file text codec: `JSON.stringify(·, null, 2)` and the
JSONC reader -/

/-- A JSON value, as produced by `Bun.JSONC.parse` and consumed by
`JSON.stringify`.  Numeric literals are embedded as integers: every number
the lock-file engine itself writes is an integer, and the model parser
rejects fractional or exponent notation rather than mis-reading it. -/
inductive Json where
  | jnull
  | jbool (b : Bool)
  | jnum (n : Int)
  | jstr (s : String)
  | jarr (items : List Json)
  | jobj (fields : List (String × Json))

/-- The decimal digit character for `d < 10`. -/
def digitCh (d : Nat) : Char := Char.ofNat (48 + d)

/-- Decimal digits of a natural number, most significant first. -/
def natChars (n : Nat) : List Char :=
  if n = 0 then ['0'] else ((Nat.digits 10 n).map digitCh).reverse

/-- JS number-to-string for integers: decimal digits with a leading minus
sign for negatives. -/
def intChars (i : Int) : List Char :=
  match i with
  | .ofNat m => natChars m
  | .negSucc m => '-' :: natChars (m + 1)

/-- Lowercase hexadecimal digit for `d < 16`. -/
def hexCh (d : Nat) : Char :=
  if d < 10 then Char.ofNat (48 + d) else Char.ofNat (87 + d)

/-- One character escaped as `JSON.stringify` escapes it inside a string
literal: quote and backslash, the short control escapes, `\u00xx` for the
remaining control characters, everything else verbatim. -/
def escChar (c : Char) : List Char :=
  if c == '"' then ['\\', '"']
  else if c == '\\' then ['\\', '\\']
  else if c.toNat == 8 then ['\\', 'b']
  else if c.toNat == 9 then ['\\', 't']
  else if c.toNat == 10 then ['\\', 'n']
  else if c.toNat == 12 then ['\\', 'f']
  else if c.toNat == 13 then ['\\', 'r']
  else if c.toNat < 32 then
    ['\\', 'u', '0', '0', hexCh (c.toNat / 16), hexCh (c.toNat % 16)]
  else [c]

/-- A character run, escaped. -/
def escChars (l : List Char) : List Char :=
  l.foldr (fun c acc => escChar c ++ acc) []

/-- A JSON string literal. -/
def strChars (s : String) : List Char :=
  '"' :: (escChars s.data ++ ['"'])

/-- The two-space indentation prefix of `JSON.stringify(x, null, 2)` at
nesting depth `ind`. -/
def pad (ind : Nat) : List Char := List.replicate (2 * ind) ' '

mutual
/-- `JSON.stringify(v, null, 2)`: two-space pretty printing. -/
def pjson (ind : Nat) : Json → List Char
  | .jnull => ['n', 'u', 'l', 'l']
  | .jbool true => ['t', 'r', 'u', 'e']
  | .jbool false => ['f', 'a', 'l', 's', 'e']
  | .jnum n => intChars n
  | .jstr s => strChars s
  | .jarr [] => ['[', ']']
  | .jarr (v :: vs) =>
      '[' :: '\n' :: (pitems (ind + 1) v vs ++ '\n' :: (pad ind ++ [']']))
  | .jobj [] => ['{', '}']
  | .jobj ((k, v) :: fs) =>
      '{' :: '\n' :: (pfields (ind + 1) k v fs ++ '\n' :: (pad ind ++ ['}']))
  termination_by j => sizeOf j
  decreasing_by all_goals simp_wf <;> omega
/-- The element lines of a nonempty pretty-printed array. -/
def pitems (ind : Nat) (v : Json) : List Json → List Char
  | [] => pad ind ++ pjson ind v
  | w :: ws => pad ind ++ pjson ind v ++ ',' :: '\n' :: pitems ind w ws
  termination_by l => 1 + sizeOf v + sizeOf l
  decreasing_by all_goals simp_wf <;> omega
/-- The member lines of a nonempty pretty-printed object. -/
def pfields (ind : Nat) (k : String) (v : Json) :
    List (String × Json) → List Char
  | [] => pad ind ++ strChars k ++ ':' :: ' ' :: pjson ind v
  | (gk, gv) :: gs =>
      pad ind ++ strChars k ++ ':' :: ' ' :: pjson ind v ++
        ',' :: '\n' :: pfields ind gk gv gs
  termination_by l => 1 + sizeOf v + sizeOf l
  decreasing_by all_goals simp_wf <;> omega
end

mutual
/-- Every object anywhere inside the value has pairwise distinct keys, as
the output of a JS object graph always does. -/
def jsonKeysOk : Json → Bool
  | .jnull => true
  | .jbool _ => true
  | .jnum _ => true
  | .jstr _ => true
  | .jarr items => itemsKeysOk items
  | .jobj fields => nodupKeys fields && fieldsKeysOk fields
  termination_by j => sizeOf j
  decreasing_by all_goals simp_wf <;> omega
def itemsKeysOk : List Json → Bool
  | [] => true
  | v :: vs => jsonKeysOk v && itemsKeysOk vs
  termination_by l => sizeOf l
  decreasing_by all_goals simp_wf <;> omega
def fieldsKeysOk : List (String × Json) → Bool
  | [] => true
  | (_, v) :: fs => jsonKeysOk v && fieldsKeysOk fs
  termination_by l => sizeOf l
  decreasing_by all_goals simp_wf <;> omega
end

/-! The JSONC reader.  Whitespace, `//` line comments and block comments
are trivia; values, array elements and object members are parsed by fuel
recursion, where the fuel passed in by `jsoncParse` (input length plus
one) always suffices. -/
/-- JSON whitespace. -/
def wsChar (c : Char) : Bool :=
  c == ' ' || c == '\n' || c == '\t' || c == '\r'

/-- Decimal digit test. -/
def isDigitCh (c : Char) : Bool := '0' ≤ c && c ≤ '9'

/-- Skip to the end of a block comment (an unterminated one consumes the
rest of the input, which then fails to parse). -/
def dropBlock : List Char → List Char
  | [] => []
  | c1 :: rest =>
      if c1 == '*' && rest.head? == some '/' then rest.tail
      else dropBlock rest

/-- Skip whitespace and comments; one fuel unit per comment. -/
def skipCmts : Nat → List Char → List Char
  | 0, cs => cs
  | fuel + 1, cs =>
      match cs.dropWhile wsChar with
      | c1 :: c2 :: rest =>
          if c1 == '/' && c2 == '/' then
            skipCmts fuel (rest.dropWhile (fun c => !(c == '\n')))
          else if c1 == '/' && c2 == '*' then
            skipCmts fuel (dropBlock rest)
          else c1 :: c2 :: rest
      | short => short

/-- Skip all leading trivia (self-sufficient fuel). -/
def skipTrivia (cs : List Char) : List Char :=
  skipCmts (cs.length + 1) cs

/-- Value of a hexadecimal digit character. -/
def hexVal (c : Char) : Option Nat :=
  if '0' ≤ c && c ≤ '9' then some (c.toNat - 48)
  else if 'a' ≤ c && c ≤ 'f' then some (c.toNat - 87)
  else if 'A' ≤ c && c ≤ 'F' then some (c.toNat - 55)
  else none

/-- The single-character string escapes of JSON. -/
def escMap : Char → Option Char
  | '"' => some '"'
  | '\\' => some '\\'
  | '/' => some '/'
  | 'b' => some (Char.ofNat 8)
  | 'f' => some (Char.ofNat 12)
  | 'n' => some '\n'
  | 'r' => some '\r'
  | 't' => some '\t'
  | _ => none

/-- String-literal body reader, after the opening quote; `acc` holds the
characters read so far in reverse.  Unescaped control characters and bad
escapes are rejected; `\uXXXX` is accepted when it denotes a scalar
value. -/
def pstrAux (acc : List Char) : List Char → Option (String × List Char)
  | '"' :: rest => some (String.mk acc.reverse, rest)
  | '\\' :: 'u' :: a :: b :: c :: d :: rest =>
      (match hexVal a, hexVal b, hexVal c, hexVal d with
       | some va, some vb, some vc, some vd =>
           let n := ((va * 16 + vb) * 16 + vc) * 16 + vd
           if n.isValidChar then pstrAux (Char.ofNat n :: acc) rest
           else none
       | _, _, _, _ => none)
  | '\\' :: e :: rest =>
      (match escMap e with
       | some ch => pstrAux (ch :: acc) rest
       | none => none)
  | c :: rest => if c.toNat < 32 then none else pstrAux (c :: acc) rest
  | [] => none

/-- String literal body, after the opening quote. -/
def pstring (cs : List Char) : Option (String × List Char) := pstrAux [] cs

/-- Numeric value of a run of decimal digit characters. -/
def digitsVal (l : List Char) : Nat :=
  l.foldl (fun a c => a * 10 + (c.toNat - 48)) 0

/-- A natural-number literal: one or more digits, not followed by a
fraction or exponent marker (the model reads integers only). -/
def pnat (cs : List Char) : Option (Nat × List Char) :=
  let ds := cs.takeWhile isDigitCh
  if ds.isEmpty then none
  else
    let rest := cs.dropWhile isDigitCh
    match rest with
    | '.' :: _ => none
    | 'e' :: _ => none
    | 'E' :: _ => none
    | _ => some (digitsVal ds, rest)

/-- A number literal with optional leading minus sign. -/
def pnumber (cs : List Char) : Option (Json × List Char) :=
  match cs with
  | '-' :: r => (pnat r).map (fun p => (Json.jnum (-(p.1 : Int)), p.2))
  | _ => (pnat cs).map (fun p => (Json.jnum (p.1 : Int), p.2))

/-- What the fuel-recursive reader is currently reading: a value, the
remaining elements of an array (accumulated so far), or the remaining
members of an object. -/
inductive PMode where
  | value
  | elems (acc : List Json)
  | members (acc : List (String × Json))

/-- The JSONC reader: a value, or the tail of an array or object, by
recursion on fuel (one unit per value, element or member, so input length
plus one always suffices).  A repeated object key overwrites in place, as
in a JS object.  Arrays and objects with at least one element are read by
the `elems` and `members` modes. -/
def pstep : Nat → PMode → List Char → Option (Json × List Char)
  | 0, _, _ => none
  | fuel + 1, .value, cs =>
      (match skipTrivia cs with
       | 'n' :: 'u' :: 'l' :: 'l' :: rest => some (.jnull, rest)
       | 't' :: 'r' :: 'u' :: 'e' :: rest => some (.jbool true, rest)
       | 'f' :: 'a' :: 'l' :: 's' :: 'e' :: rest => some (.jbool false, rest)
       | '"' :: rest => (pstring rest).map (fun p => (Json.jstr p.1, p.2))
       | '[' :: rest =>
           (match skipTrivia rest with
            | ']' :: rest' => some (.jarr [], rest')
            | _ => pstep fuel (.elems []) rest)
       | '{' :: rest =>
           (match skipTrivia rest with
            | '}' :: rest' => some (.jobj [], rest')
            | _ => pstep fuel (.members []) rest)
       | c :: rest =>
           if c == '-' || isDigitCh c then pnumber (c :: rest) else none
       | [] => none)
  | fuel + 1, .elems acc, cs =>
      (match pstep fuel .value cs with
       | none => none
       | some (v, r) =>
           match skipTrivia r with
           | ',' :: r' => pstep fuel (.elems (acc ++ [v])) r'
           | ']' :: r' => some (.jarr (acc ++ [v]), r')
           | _ => none)
  | fuel + 1, .members acc, cs =>
      (match skipTrivia cs with
       | '"' :: r =>
           (match pstring r with
            | none => none
            | some (key, r1) =>
                match skipTrivia r1 with
                | ':' :: r2 =>
                    (match pstep fuel .value r2 with
                     | none => none
                     | some (v, r3) =>
                         match skipTrivia r3 with
                         | ',' :: r4 =>
                             pstep fuel (.members (objInsert acc key v)) r4
                         | '}' :: r4 =>
                             some (.jobj (objInsert acc key v), r4)
                         | _ => none)
                | _ => none)
       | _ => none)

/-- The continuation of `pstep` after an opening bracket: an immediately
closed empty array, or the first element. -/
def parr (f : Nat) (rest : List Char) : Option (Json × List Char) :=
  match skipTrivia rest with
  | ']' :: rest' => some (.jarr [], rest')
  | _ => pstep f (.elems []) rest

/-- The continuation of `pstep` after an opening brace: an immediately
closed empty object, or the first member. -/
def pobj (f : Nat) (rest : List Char) : Option (Json × List Char) :=
  match skipTrivia rest with
  | '}' :: rest' => some (.jobj [], rest')
  | _ => pstep f (.members []) rest

/-- The continuation of `pstep` in `elems` mode after one element: a comma
continues, a bracket closes. -/
def pelemsNext (f : Nat) (acc : List Json) (v : Json) (r : List Char) :
    Option (Json × List Char) :=
  match skipTrivia r with
  | ',' :: r' => pstep f (.elems (acc ++ [v])) r'
  | ']' :: r' => some (.jarr (acc ++ [v]), r')
  | _ => none

/-- The continuation of `pstep` in `members` mode after one member: a comma
continues, a brace closes. -/
def pmembersNext (f : Nat) (acc : List (String × Json)) (key : String)
    (v : Json) (r3 : List Char) : Option (Json × List Char) :=
  match skipTrivia r3 with
  | ',' :: r4 => pstep f (.members (objInsert acc key v)) r4
  | '}' :: r4 => some (.jobj (objInsert acc key v), r4)
  | _ => none

/-- The continuation of `pstep` in `members` mode after the colon: the
member value. -/
def pmembersVal (f : Nat) (acc : List (String × Json)) (key : String)
    (r2 : List Char) : Option (Json × List Char) :=
  match pstep f .value r2 with
  | none => none
  | some (v, r3) => pmembersNext f acc key v r3

/-- The continuation of `pstep` in `members` mode after the key string. -/
def pmembersColon (f : Nat) (acc : List (String × Json)) (key : String)
    (r1 : List Char) : Option (Json × List Char) :=
  match skipTrivia r1 with
  | ':' :: r2 => pmembersVal f acc key r2
  | _ => none

/-- The continuation of `pstep` in `members` mode after the opening
quote. -/
def pmembersKey (f : Nat) (acc : List (String × Json)) (r : List Char) :
    Option (Json × List Char) :=
  match pstring r with
  | none => none
  | some (key, r1) => pmembersColon f acc key r1

/-- `Bun.JSONC.parse`: one value, then only trailing trivia. -/
def jsoncParse (cs : List Char) : Option Json :=
  match pstep (cs.length + 1) .value cs with
  | some (j, r) => if (skipTrivia r).isEmpty then some j else none
  | none => none

/-! The lock-file layer over Json: `serializeLockFile` is
`JSON.stringify(lockFile, null, 2)` plus a newline; `parseLockFile` is the
guarded `Bun.JSONC.parse`, the `??` defaults for missing or null sections,
and `LockFileSchema.parse` (zod), falling back to the empty document. -/
/-- Optional object members: a field list with `none` for properties the
source object does not carry (`undefined` properties are omitted by
`JSON.stringify`). -/
def optFields : List (String × Option Json) → List (String × Json) :=
  fun l => l.filterMap (fun p => p.2.map (fun j => (p.1, j)))

/-- A JSON array of strings. -/
def strListJson (xs : List String) : Json := .jarr (xs.map .jstr)

/-- The JSON object of a tap entry. -/
def tapEntryJson (e : TapEntry) : Json :=
  .jobj (optFields
    [("url", e.url.map .jstr),
     ("commit", e.commit.map .jstr),
     ("official", e.official.map .jbool)])

/-- The JSON object of a brew entry (fields in schema order). -/
def brewEntryJson (e : BrewEntry) : Json :=
  .jobj (optFields
    [("version", some (.jstr e.version)),
     ("installed", e.installed.map strListJson),
     ("revision", e.revision.map .jnum),
     ("tap", e.tap.map .jstr),
     ("pinned", e.pinned.map .jbool),
     ("dependencies", e.dependencies.map strListJson),
     ("sha256", e.sha256.map .jstr),
     ("installed_as_dependency", e.installed_as_dependency.map .jbool),
     ("installed_on_request", e.installed_on_request.map .jbool)])

/-- The JSON object of a cask entry. -/
def caskEntryJson (e : CaskEntry) : Json :=
  .jobj (optFields
    [("version", some (.jstr e.version)),
     ("tap", e.tap.map .jstr),
     ("sha256", e.sha256.map .jstr),
     ("auto_updates", e.auto_updates.map .jbool)])

/-- The JSON object of a mas entry. -/
def masEntryJson (e : MasEntry) : Json :=
  .jobj [("id", .jnum e.id), ("version", .jstr e.version)]

/-- A section object: one member per tracked name. -/
def sectionJson (entryJson : α → Json) (l : List (String × α)) : Json :=
  .jobj (l.map (fun p => (p.1, entryJson p.2)))

/-- The JSON object `JSON.stringify` walks for a lock document (key order
as built by `createEmptyLockFile` and preserved by every operation). -/
def docToJson (d : LockFile) : Json :=
  .jobj
    [("version", .jnum d.version),
     ("tap", sectionJson tapEntryJson d.tap),
     ("brew", sectionJson brewEntryJson d.brew),
     ("cask", sectionJson caskEntryJson d.cask),
     ("mas", sectionJson masEntryJson d.mas)]

/-- zod `z.string()`. -/
def asStr : Json → Option String
  | .jstr s => some s
  | _ => none

/-- zod `z.number()` (integral in this model). -/
def asInt : Json → Option Int
  | .jnum n => some n
  | _ => none

/-- zod `z.boolean()`. -/
def asBool : Json → Option Bool
  | .jbool b => some b
  | _ => none

/-- Sequence an option-producing map over a list, failing on the first
failure (zod array semantics on success). -/
def omap (f : α → Option β) : List α → Option (List β)
  | [] => some []
  | a :: l =>
      match f a with
      | none => none
      | some b => (omap f l).map (fun bs => b :: bs)

/-- zod `z.array(z.string())`. -/
def asStrList : Json → Option (List String)
  | .jarr items => omap asStr items
  | _ => none

/-- An optional zod field: absent is fine, present must typecheck (null is
a type error for `.optional()`). -/
def optOf (f : Json → Option β) : Option Json → Option (Option β)
  | none => some none
  | some j => (f j).map some

/-- A required zod field. -/
def reqOf (f : Json → Option β) : Option Json → Option β
  | none => none
  | some j => f j

/-- `TapEntrySchema.parse` on a JSON value (unknown keys stripped). -/
def tapEntryOfJson : Json → Option TapEntry
  | .jobj fs => do
      let url ← optOf asStr (fs.lookup "url")
      let commit ← optOf asStr (fs.lookup "commit")
      let official ← optOf asBool (fs.lookup "official")
      some { url := url, commit := commit, official := official }
  | _ => none

/-- `BrewEntrySchema.parse` on a JSON value. -/
def brewEntryOfJson : Json → Option BrewEntry
  | .jobj fs => do
      let version ← reqOf asStr (fs.lookup "version")
      let installed ← optOf asStrList (fs.lookup "installed")
      let revision ← optOf asInt (fs.lookup "revision")
      let tap ← optOf asStr (fs.lookup "tap")
      let pinned ← optOf asBool (fs.lookup "pinned")
      let dependencies ← optOf asStrList (fs.lookup "dependencies")
      let sha256 ← optOf asStr (fs.lookup "sha256")
      let iad ← optOf asBool (fs.lookup "installed_as_dependency")
      let ior ← optOf asBool (fs.lookup "installed_on_request")
      some { version := version, installed := installed, revision := revision,
             tap := tap, pinned := pinned, dependencies := dependencies,
             sha256 := sha256, installed_as_dependency := iad,
             installed_on_request := ior }
  | _ => none

/-- `CaskEntrySchema.parse` on a JSON value. -/
def caskEntryOfJson : Json → Option CaskEntry
  | .jobj fs => do
      let version ← reqOf asStr (fs.lookup "version")
      let tap ← optOf asStr (fs.lookup "tap")
      let sha256 ← optOf asStr (fs.lookup "sha256")
      let auto_updates ← optOf asBool (fs.lookup "auto_updates")
      some { version := version, tap := tap, sha256 := sha256,
             auto_updates := auto_updates }
  | _ => none

/-- `MasEntrySchema.parse` on a JSON value. -/
def masEntryOfJson : Json → Option MasEntry
  | .jobj fs => do
      let id ← reqOf asInt (fs.lookup "id")
      let version ← reqOf asStr (fs.lookup "version")
      some { id := id, version := version }
  | _ => none

/-- `z.record(z.string(), schema)`: a plain object whose every property
value parses. -/
def sectionOfJson (entryOfJson : Json → Option α) :
    Json → Option (List (String × α))
  | .jobj fs => omap (fun p => (entryOfJson p.2).map (fun e => (p.1, e))) fs
  | _ => none

/-- The `?? {}` default applied to a section before validation: a missing
or null property becomes the empty object. -/
def jsDefaultObj : Option Json → Json
  | none => .jobj []
  | some .jnull => .jobj []
  | some j => j

/-- The `?? LOCK_VERSION` default for the version field. -/
def jsDefaultVersion : Option Json → Json
  | none => .jnum 1
  | some .jnull => .jnum 1
  | some j => j

/-- The defaults-then-validate step of `parseLockFile` on the parsed JSON
value: property access on `null` throws (caught by the caller); on any
other non-object every property is `undefined`, so the defaults yield the
empty document; on an object, each section defaults to `{}` when missing
or null and is then validated by the zod schema. -/
def docOfJson : Json → Option LockFile
  | .jnull => none
  | .jobj fs => do
      let version ← asInt (jsDefaultVersion (fs.lookup "version"))
      let tap ← sectionOfJson tapEntryOfJson (jsDefaultObj (fs.lookup "tap"))
      let brew ← sectionOfJson brewEntryOfJson
        (jsDefaultObj (fs.lookup "brew"))
      let cask ← sectionOfJson caskEntryOfJson
        (jsDefaultObj (fs.lookup "cask"))
      let mas ← sectionOfJson masEntryOfJson (jsDefaultObj (fs.lookup "mas"))
      some { version := version, tap := tap, brew := brew, cask := cask,
             mas := mas }
  | _ => some createEmptyLockFile

/-- The `!content.trim()` emptiness guard of `parseLockFile`: true iff the
content is all whitespace. -/
def jsBlank (s : String) : Bool := s.data.all wsChar

/-- `parseLockFile` of `lock-manager.ts`: blank content, a JSONC parse
error, or a schema violation yield the empty document. -/
def parseLockFile (content : String) : LockFile :=
  if jsBlank content then createEmptyLockFile
  else
    match jsoncParse content.data with
    | none => createEmptyLockFile
    | some j =>
        match docOfJson j with
        | none => createEmptyLockFile
        | some doc => doc

/-- `serializeLockFile` of `lock-manager.ts`:
`JSON.stringify(lockFile, null, 2)` plus a trailing newline. -/
def serializeLockFile (d : LockFile) : String :=
  String.mk (pjson 0 (docToJson d) ++ ['\n'])

/-- Condition on the remainder after a printed value so that a number
literal cannot be extended: empty, or headed by something that is neither
a digit nor a fraction or exponent marker. -/
def numDelim (rest : List Char) : Prop :=
  ∀ c, rest.head? = some c → isDigitCh c = false ∧ c ≠ '.' ∧ c ≠ 'e' ∧ c ≠ 'E'

/-! ### Partial documents with comments -/
/-- A lock document with only the selected sections present, the others
absent from the JSON text entirely. -/
def partialDocJson (pt pb pc pm : Bool) (d : LockFile) : Json :=
  .jobj (optFields
    [("version", some (.jnum d.version)),
     ("tap", cond pt (some (sectionJson tapEntryJson d.tap)) none),
     ("brew", cond pb (some (sectionJson brewEntryJson d.brew)) none),
     ("cask", cond pc (some (sectionJson caskEntryJson d.cask)) none),
     ("mas", cond pm (some (sectionJson masEntryJson d.mas)) none)])

/-- The document with the unselected sections emptied. -/
def maskSections (pt pb pc pm : Bool) (d : LockFile) : LockFile :=
  { version := d.version
    tap := cond pt d.tap []
    brew := cond pb d.brew []
    cask := cond pc d.cask []
    mas := cond pm d.mas [] }

/-- The lock documents the reconciliation engine can produce: the empty
document, an upsert or a removal applied to a producible document, or a
freshly generated document. -/
inductive Producible : LockFile → Prop
  | empty : Producible createEmptyLockFile
  | upsert (d : LockFile) (k : PackageType) (name : String) (e : KindEntry k) :
      Producible d → Producible (upsertEntry d k name e)
  | remove (d : LockFile) (k : PackageType) (name : String) :
      Producible d → Producible (removeEntry d k name)
  | generate (genv : GenEnv) : Producible (generateLockFile genv)

/-! ### Association-list facts about the JS object operations -/

theorem lookup_cons_hit (a : String) (p : String × α) (l : List (String × α))
    (h : (a == p.1) = true) : List.lookup a (p :: l) = some p.2 := by
  cases p with
  | mk k b => simp [List.lookup, h]

theorem lookup_cons_miss (a : String) (p : String × α) (l : List (String × α))
    (h : (a == p.1) = false) :
    List.lookup a (p :: l) = List.lookup a l := by
  cases p with
  | mk k b => simp [List.lookup, h]

theorem lookup_map_replace (l : List (String × α)) (n : String) (e : α)
    (h : (l.lookup n).isSome) :
    (l.map (fun p => if p.1 == n then (n, e) else p)).lookup n = some e := by
  induction l with
  | nil => simp [List.lookup] at h
  | cons p t ih =>
      by_cases hk : p.1 = n
      · simp only [List.map, beq_iff_eq.mpr hk, if_true]
        exact lookup_cons_hit n (n, e) _ (beq_iff_eq.mpr rfl)
      · have hb : (p.1 == n) = false := beq_false_of_ne hk
        have hb2 : (n == p.1) = false := beq_false_of_ne (fun hc => hk hc.symm)
        rw [lookup_cons_miss n p t hb2] at h
        simp only [List.map, hb, Bool.false_eq_true, if_false]
        rw [lookup_cons_miss n p _ hb2]
        exact ih h

theorem lookup_map_replace_ne (l : List (String × α)) (n n' : String) (e : α)
    (h : n' ≠ n) :
    (l.map (fun p => if p.1 == n then (n, e) else p)).lookup n' =
      l.lookup n' := by
  induction l with
  | nil => simp
  | cons p t ih =>
      by_cases hk : p.1 = n
      · have hn2 : (n' == p.1) = false := beq_false_of_ne (fun hc => h (hk ▸ hc))
        have hn : (n' == n) = false := beq_false_of_ne h
        simp only [List.map, beq_iff_eq.mpr hk, if_true]
        rw [lookup_cons_miss n' (n, e) _ hn, lookup_cons_miss n' p t hn2]
        exact ih
      · have hb : (p.1 == n) = false := beq_false_of_ne hk
        simp only [List.map, hb, Bool.false_eq_true, if_false]
        by_cases hq : n' = p.1
        · rw [lookup_cons_hit n' p _ (beq_iff_eq.mpr hq),
            lookup_cons_hit n' p t (beq_iff_eq.mpr hq)]
        · have hq2 : (n' == p.1) = false := beq_false_of_ne hq
          rw [lookup_cons_miss n' p _ hq2, lookup_cons_miss n' p t hq2]
          exact ih

theorem lookup_append_last (l : List (String × α)) (n : String) (e : α)
    (h : l.lookup n = none) :
    (l ++ [(n, e)]).lookup n = some e := by
  induction l with
  | nil => exact lookup_cons_hit n (n, e) [] (beq_iff_eq.mpr rfl)
  | cons p t ih =>
      by_cases hk : n = p.1
      · rw [lookup_cons_hit n p t (beq_iff_eq.mpr hk)] at h
        exact absurd h (by simp)
      · have hb : (n == p.1) = false := beq_false_of_ne hk
        rw [lookup_cons_miss n p t hb] at h
        rw [List.cons_append, lookup_cons_miss n p _ hb]
        exact ih h

theorem lookup_append_last_ne (l : List (String × α)) (n n' : String) (e : α)
    (h : n' ≠ n) :
    (l ++ [(n, e)]).lookup n' = l.lookup n' := by
  induction l with
  | nil =>
      rw [List.nil_append, lookup_cons_miss n' (n, e) [] (beq_false_of_ne h)]
  | cons p t ih =>
      by_cases hk : n' = p.1
      · rw [List.cons_append, lookup_cons_hit n' p _ (beq_iff_eq.mpr hk),
          lookup_cons_hit n' p t (beq_iff_eq.mpr hk)]
      · have hb : (n' == p.1) = false := beq_false_of_ne hk
        rw [List.cons_append, lookup_cons_miss n' p _ hb,
          lookup_cons_miss n' p t hb]
        exact ih

theorem lookup_objInsert_self (l : List (String × α)) (n : String) (e : α) :
    (objInsert l n e).lookup n = some e := by
  unfold objInsert
  by_cases h : (l.lookup n).isSome
  · simpa [h] using lookup_map_replace l n e h
  · have hn : l.lookup n = none := by
      cases hl : l.lookup n with
      | none => rfl
      | some _ => simp [hl] at h
    simpa [h] using lookup_append_last l n e hn

theorem lookup_objInsert_ne (l : List (String × α)) (n n' : String) (e : α)
    (h : n' ≠ n) :
    (objInsert l n e).lookup n' = l.lookup n' := by
  unfold objInsert
  by_cases hs : (l.lookup n).isSome
  · simpa [hs] using lookup_map_replace_ne l n n' e h
  · simpa [hs] using lookup_append_last_ne l n n' e h

theorem lookup_objRemove_self (l : List (String × α)) (n : String) :
    (objRemove l n).lookup n = none := by
  induction l with
  | nil => simp [objRemove]
  | cons p t ih =>
      by_cases hk : p.1 = n
      · have hb : (p.1 == n) = true := beq_iff_eq.mpr hk
        simpa [objRemove, List.filter, hb] using ih
      · have hb : (p.1 == n) = false := beq_false_of_ne hk
        have hb2 : (n == p.1) = false := beq_false_of_ne (fun hc => hk hc.symm)
        simp only [objRemove, List.filter, hb, Bool.not_false]
        rw [lookup_cons_miss n p _ hb2]
        simpa [objRemove] using ih

theorem lookup_objRemove_ne (l : List (String × α)) (n n' : String)
    (h : n' ≠ n) :
    (objRemove l n).lookup n' = l.lookup n' := by
  induction l with
  | nil => simp [objRemove]
  | cons p t ih =>
      by_cases hk : p.1 = n
      · have hb : (p.1 == n) = true := beq_iff_eq.mpr hk
        have hn2 : (n' == p.1) = false := beq_false_of_ne (fun hc => h (hk ▸ hc))
        simp only [objRemove, List.filter, hb, Bool.not_true]
        rw [lookup_cons_miss n' p t hn2]
        simpa [objRemove] using ih
      · have hb : (p.1 == n) = false := beq_false_of_ne hk
        simp only [objRemove, List.filter, hb, Bool.not_false]
        by_cases hq : n' = p.1
        · rw [lookup_cons_hit n' p _ (beq_iff_eq.mpr hq),
            lookup_cons_hit n' p t (beq_iff_eq.mpr hq)]
        · have hq2 : (n' == p.1) = false := beq_false_of_ne hq
          rw [lookup_cons_miss n' p _ hq2, lookup_cons_miss n' p t hq2]
          simpa [objRemove] using ih

theorem objRemove_of_lookup_none (l : List (String × α)) (n : String)
    (h : l.lookup n = none) : objRemove l n = l := by
  induction l with
  | nil => rfl
  | cons p t ih =>
      by_cases hk : n = p.1
      · rw [lookup_cons_hit n p t (beq_iff_eq.mpr hk)] at h
        exact absurd h (by simp)
      · have hb : (n == p.1) = false := beq_false_of_ne hk
        have hb2 : (p.1 == n) = false :=
          beq_false_of_ne (fun hc => hk hc.symm)
        rw [lookup_cons_miss n p t hb] at h
        simp only [objRemove, List.filter, hb2, Bool.not_false]
        have ht : objRemove t n = t := ih h
        simp only [objRemove] at ht
        rw [ht]

/-! ### C4 and C8: upsert and remove -/

/-- C4: for every lock document `doc`, kind `k`, name `n` and record `r`,
`upsert(doc, k, n, r)` is total and returns a document mapping `n` to `r`
in the `k` mapping, leaving every other name of kind `k`, every entry of
every other kind (including one of a different kind sharing the name `n`),
and the format version unchanged; the input document itself is a pure
value and is not mutated. -/
theorem upsert_frame (doc : LockFile) (k : PackageType) (n : String)
    (r : KindEntry k) :
    lookupEntry (upsertEntry doc k n r) k n = some r
    ∧ (∀ n', n' ≠ n →
        lookupEntry (upsertEntry doc k n r) k n' = lookupEntry doc k n')
    ∧ (∀ k', k' ≠ k → ∀ n',
        lookupEntry (upsertEntry doc k n r) k' n' = lookupEntry doc k' n')
    ∧ (upsertEntry doc k n r).version = doc.version := by
  refine ⟨?_, ?_, ?_, ?_⟩
  · cases k <;>
      simp [upsertEntry, lookupEntry, upsertTap, upsertBrew, upsertCask,
        upsertMas, lookup_objInsert_self]
  · intro n' hn
    cases k <;>
      simp [upsertEntry, lookupEntry, upsertTap, upsertBrew, upsertCask,
        upsertMas, lookup_objInsert_ne _ _ _ _ hn]
  · intro k' hk n'
    cases k <;> cases k' <;>
      simp_all [upsertEntry, lookupEntry, upsertTap, upsertBrew, upsertCask,
        upsertMas]
  · cases k <;>
      simp [upsertEntry, upsertTap, upsertBrew, upsertCask, upsertMas]

/-- C4 witness: `upsert_frame` applied to the empty document, the formula
`git` at 2.43.0, the other name `node` and the other kind cask. -/
theorem upsert_frame_wit :
    lookupEntry (upsertEntry createEmptyLockFile .brew "git" brGit) .brew "git"
        = some brGit
    ∧ lookupEntry (upsertEntry createEmptyLockFile .brew "git" brGit) .brew
        "node" = lookupEntry createEmptyLockFile .brew "node"
    ∧ lookupEntry (upsertEntry createEmptyLockFile .brew "git" brGit) .cask
        "git" = lookupEntry createEmptyLockFile .cask "git"
    ∧ (upsertEntry createEmptyLockFile .brew "git" brGit).version =
        createEmptyLockFile.version := by
  have h := upsert_frame createEmptyLockFile .brew "git" brGit
  exact ⟨h.1, h.2.1 "node" (by decide), h.2.2.1 .cask (by decide) "git",
    h.2.2.2⟩

/-- C8: for every lock document `doc`, kind `k` and name `n`,
`remove(doc, k, n)` is total, deletes the entry at `n` in the `k` mapping,
leaves every other name of kind `k`, every other kind and the format
version unchanged, and is the identity (same document) when no such entry
exists. -/
theorem remove_frame (doc : LockFile) (k : PackageType) (n : String) :
    lookupEntry (removeEntry doc k n) k n = none
    ∧ (∀ n', n' ≠ n →
        lookupEntry (removeEntry doc k n) k n' = lookupEntry doc k n')
    ∧ (∀ k', k' ≠ k → ∀ n',
        lookupEntry (removeEntry doc k n) k' n' = lookupEntry doc k' n')
    ∧ (removeEntry doc k n).version = doc.version
    ∧ (lookupEntry doc k n = none → removeEntry doc k n = doc) := by
  refine ⟨?_, ?_, ?_, ?_, ?_⟩
  · cases k <;>
      simp [removeEntry, lookupEntry, removeTap, removeBrew, removeCask,
        removeMas, lookup_objRemove_self]
  · intro n' hn
    cases k <;>
      simp [removeEntry, lookupEntry, removeTap, removeBrew, removeCask,
        removeMas, lookup_objRemove_ne _ _ _ hn]
  · intro k' hk n'
    cases k <;> cases k' <;>
      simp_all [removeEntry, lookupEntry, removeTap, removeBrew, removeCask,
        removeMas]
  · cases k <;>
      simp [removeEntry, removeTap, removeBrew, removeCask, removeMas]
  · intro h
    cases k <;>
      simp only [removeEntry, removeTap, removeBrew, removeCask, removeMas,
        lookupEntry] at h ⊢ <;>
      rw [objRemove_of_lookup_none _ _ h]

/-- C8 witness: `remove_frame` applied to a one-formula document, at the
tracked name, an untracked name, and across kinds; in particular removing
the untracked cask `x` from `docBrewX` returns the same document. -/
theorem remove_frame_wit :
    lookupEntry (removeEntry docBrewX .brew "x") .brew "x" = none
    ∧ lookupEntry (removeEntry docBrewX .brew "x") .brew "y" =
        lookupEntry docBrewX .brew "y"
    ∧ lookupEntry (removeEntry docBrewX .brew "x") .cask "x" =
        lookupEntry docBrewX .cask "x"
    ∧ (removeEntry docBrewX .brew "x").version = docBrewX.version
    ∧ removeEntry docBrewX .cask "x" = docBrewX := by
  have h1 := remove_frame docBrewX .brew "x"
  have h2 := remove_frame docBrewX .cask "x"
  exact ⟨h1.1, h1.2.1 "y" (by decide), h1.2.2.1 .cask (by decide) "x",
    h1.2.2.2.1, h2.2.2.2.2 rfl⟩

/-! ### C1: drift checking; C10: name handling of the version query -/

/-- C1 (amended): for every environment and lock document, `matches` is
true iff the mismatch list is empty; the mismatches are exactly one record
`{name, expected, actual}` per versioned entry (brew, cask, mas — taps are
skipped) whose live version is absent or differs, with `actual` the live
version itself (`none` precisely when the package is not installed); and
the tap mapping has no influence on the result.  The implementation
records no kind discriminator in a mismatch (see the counterexample). -/
theorem checkDrift_spec (env : Env) (doc : LockFile) :
    ((checkLockFile env doc).matched = true ↔
      (checkLockFile env doc).mismatches = [])
    ∧ (checkLockFile env doc).mismatches = driftMismatches env doc
    ∧ (∀ k n v, (k, n, v) ∈ versionedEntries doc →
        getPackageVersion env k n ≠ some v →
        ({ name := n, expected := v, actual := getPackageVersion env k n } :
          Mismatch) ∈ (checkLockFile env doc).mismatches)
    ∧ (∀ m, m ∈ (checkLockFile env doc).mismatches →
        ∃ k v, (k, m.name, v) ∈ versionedEntries doc ∧ m.expected = v ∧
          m.actual = getPackageVersion env k m.name ∧
          getPackageVersion env k m.name ≠ some v)
    ∧ (∀ t', checkLockFile env { doc with tap := t' } = checkLockFile env doc)
    := by
  have hms : (checkLockFile env doc).mismatches = driftMismatches env doc := by
    simp only [checkLockFile, driftMismatches, versionedEntries, checkSection,
      List.filterMap_append, List.filterMap_map]
    rfl
  refine ⟨?_, hms, ?_, ?_, fun t' => rfl⟩
  · simp [checkLockFile, List.length_eq_zero]
  · intro k n v hmem hne
    rw [hms]
    exact List.mem_filterMap.mpr ⟨(k, n, v), hmem, by simp [hne]⟩
  · intro m hm
    rw [hms] at hm
    obtain ⟨x, hx, heq⟩ := List.mem_filterMap.mp hm
    by_cases hc : getPackageVersion env x.1 x.2.1 ≠ some x.2.2
    · refine ⟨x.1, x.2.2, ?_, ?_, ?_, ?_⟩
      · simp only [if_pos hc] at heq
        cases heq
        simpa using hx
      · simp only [if_pos hc] at heq
        cases heq
        rfl
      · simp only [if_pos hc] at heq
        cases heq
        rfl
      · simp only [if_pos hc] at heq
        cases heq
        exact hc
    · simp only [if_neg hc] at heq
      exact absurd heq (by simp)

/-- C1 witness: `checkDrift_spec` applied to the empty environment and the
one-formula document `docBrewX`, whose sole entry has no live version. -/
theorem checkDrift_spec_wit :
    ((checkLockFile envEmpty docBrewX).matched = true ↔
      (checkLockFile envEmpty docBrewX).mismatches = [])
    ∧ (checkLockFile envEmpty docBrewX).mismatches =
        driftMismatches envEmpty docBrewX
    ∧ ({ name := "x", expected := "1.0", actual := none } : Mismatch) ∈
        (checkLockFile envEmpty docBrewX).mismatches := by
  have h := checkDrift_spec envEmpty docBrewX
  refine ⟨h.1, h.2.1, ?_⟩
  have hmem : ((PackageType.brew, "x", "1.0") :
      PackageType × String × String) ∈ versionedEntries docBrewX := by
    simp [versionedEntries, docBrewX]
  have := h.2.2.1 .brew "x" "1.0" hmem (by simp [getPackageVersion, envEmpty])
  simpa [getPackageVersion, envEmpty] using this

/-- C1 counterexample to the kind field: the claim says each recorded
mismatch carries the entry kind, but the result of `checkLockFile` on a
document whose only drifted entry is the formula `x` is identical to its
result on a document whose only drifted entry is the cask `x`, so the
mismatch records cannot contain the kind; both runs do report a
mismatch. -/
theorem checkDrift_no_kind_cex :
    checkLockFile envEmpty docBrewX = checkLockFile envEmpty docCaskX
    ∧ (checkLockFile envEmpty docBrewX).mismatches ≠ []
    ∧ docBrewX.cask = [] ∧ docBrewX.mas = []
    ∧ docCaskX.brew = [] ∧ docCaskX.mas = [] := by
  refine ⟨?_, ?_, rfl, rfl, rfl, rfl⟩
  · rfl
  · simp [checkLockFile, checkSection, docBrewX, getPackageVersion, envEmpty]

/-- C10: the live-version lookup is case-insensitive for mas names — two
names with the same lowercasing give the same result — while formula and
cask lookups pass the name to the package manager exactly as given. -/
theorem version_query_name_handling (env : Env) (n1 n2 : String) :
    (jsToLower n1 = jsToLower n2 →
      getPackageVersion env .mas n1 = getPackageVersion env .mas n2)
    ∧ getPackageVersion env .brew n1 = env.formulaVersion n1
    ∧ getPackageVersion env .cask n1 = env.caskVersion n1 := by
  refine ⟨fun h => ?_, rfl, rfl⟩
  simp [getPackageVersion, h]

/-- C10 witness: `version_query_name_handling` on the Xcode environment at
the two spellings `xcode` and `XCODE`. -/
theorem version_query_name_handling_wit :
    getPackageVersion envXcode .mas "xcode" =
      getPackageVersion envXcode .mas "XCODE"
    ∧ getPackageVersion envXcode .brew "xcode" =
        envXcode.formulaVersion "xcode"
    ∧ getPackageVersion envXcode .cask "xcode" =
        envXcode.caskVersion "xcode" := by
  have h := version_query_name_handling envXcode "xcode" "XCODE"
  exact ⟨h.1 (by decide), h.2.1, h.2.2⟩

/-! ### C5, C6, C9: the replay engine -/

theorem allOk_cons (r : Bool × List PrimCall)
    (t : List (Bool × List PrimCall)) : allOk (r :: t) = (r.1 && allOk t) := by
  simp [allOk]

theorem fullTrace_cons (r : Bool × List PrimCall)
    (t : List (Bool × List PrimCall)) :
    fullTrace (r :: t) = r.2 ++ fullTrace t := rfl

theorem strictTrace_cons_pos (r : Bool × List PrimCall)
    (t : List (Bool × List PrimCall)) (hr : r.1 = true) :
    strictTrace (r :: t) = r.2 ++ strictTrace t := by
  simp [strictTrace, hr]

theorem strictTrace_cons_neg (r : Bool × List PrimCall)
    (t : List (Bool × List PrimCall)) (hr : r.1 = false) :
    strictTrace (r :: t) = r.2 := by
  simp [strictTrace, hr]

theorem strictTrace_cons (r : Bool × List PrimCall)
    (t : List (Bool × List PrimCall)) :
    strictTrace (r :: t) = if r.1 then r.2 ++ strictTrace t else r.2 := rfl

theorem allOk_append (a b : List (Bool × List PrimCall)) :
    allOk (a ++ b) = (allOk a && allOk b) := by
  simp [allOk, List.all_append]

theorem fullTrace_append (a b : List (Bool × List PrimCall)) :
    fullTrace (a ++ b) = fullTrace a ++ fullTrace b := by
  induction a with
  | nil => simp [fullTrace]
  | cons r t ih =>
      rw [List.cons_append, fullTrace_cons, fullTrace_cons, ih,
        List.append_assoc]

theorem strictTrace_append (a b : List (Bool × List PrimCall)) :
    strictTrace (a ++ b) =
      if allOk a then fullTrace a ++ strictTrace b else strictTrace a := by
  induction a with
  | nil => simp [strictTrace, allOk, fullTrace]
  | cons r t ih =>
      cases hr : r.1 with
      | true =>
          rw [List.cons_append, strictTrace_cons_pos r _ hr, ih, allOk_cons,
            hr, Bool.true_and]
          cases ht : allOk t with
          | true =>
              rw [if_pos rfl, if_pos rfl, fullTrace_cons, List.append_assoc]
          | false =>
              rw [if_neg (by simp), if_neg (by simp),
                strictTrace_cons_pos r t hr]
      | false =>
          rw [List.cons_append, strictTrace_cons_neg _ _ hr, allOk_cons, hr,
            Bool.false_and, if_neg (by simp), strictTrace_cons_neg _ _ hr]

theorem strictTrace_of_allOk (a : List (Bool × List PrimCall))
    (h : allOk a = true) : strictTrace a = fullTrace a := by
  induction a with
  | nil => rfl
  | cons r t ih =>
      rw [allOk_cons, Bool.and_eq_true] at h
      rw [strictTrace_cons_pos r t h.1, fullTrace_cons, ih h.2]

/-- `runSection` in closed form over the mapped outcome list: its success
flag is the conjunction of the outcomes, its abort flag fires exactly on a
strict-mode failure, and its trace is the strict or full trace
accordingly. -/
theorem runSection_spec (installOne : String → α → Bool × List PrimCall)
    (strict : Bool) (l : List (String × α)) :
    runSection installOne strict l =
      (allOk (l.map (fun p => installOne p.1 p.2)),
       (if strict && !allOk (l.map (fun p => installOne p.1 p.2)) then
          strictTrace (l.map (fun p => installOne p.1 p.2))
        else fullTrace (l.map (fun p => installOne p.1 p.2))),
       strict && !allOk (l.map (fun p => installOne p.1 p.2))) := by
  induction l with
  | nil => simp [runSection, allOk, fullTrace]
  | cons p t ih =>
      have hstep : runSection installOne strict (p :: t) =
          (let r := installOne p.1 p.2
           if !r.1 && strict then (false, r.2, true)
           else
             let k := runSection installOne strict t
             (r.1 && k.1, r.2 ++ k.2.1, k.2.2)) := by
        cases p
        rfl
      rw [hstep, List.map_cons]
      cases hr : (installOne p.1 p.2).1 with
      | false =>
          cases strict with
          | false => simp [hr, ih, allOk_cons, fullTrace_cons]
          | true => simp [hr, ih, allOk_cons, strictTrace_cons]
      | true =>
          cases ht : allOk (t.map (fun p => installOne p.1 p.2)) with
          | true =>
              simp [hr, ht, ih, allOk_cons, fullTrace_cons,
                strictTrace_of_allOk _ ht]
          | false =>
              cases strict with
              | false => simp [hr, ht, ih, allOk_cons, fullTrace_cons]
              | true => simp [hr, ht, ih, allOk_cons, strictTrace_cons]

/-- `bundleInstall` in closed form: its success flag is the conjunction of
all per-entry outcomes in phase order, and its trace is the full trace
(best-effort) unless a strict-mode failure cut the run short, in which case
it is the strict trace. -/
theorem bundleInstall_eq (env : Env) (doc : LockFile) (strict : Bool) :
    bundleInstall env doc strict =
      (allOk (entryRuns env strict doc),
       if strict && !allOk (entryRuns env strict doc) then
         strictTrace (entryRuns env strict doc)
       else fullTrace (entryRuns env strict doc)) := by
  by_cases hempty : (doc.tap.isEmpty && doc.brew.isEmpty &&
      doc.cask.isEmpty && doc.mas.isEmpty) = true
  · have h1 : doc.tap = [] := by
      simp at hempty
      exact List.isEmpty_iff.mp (by simp [hempty.1.1.1])
    have h2 : doc.brew = [] := by
      simp at hempty
      exact List.isEmpty_iff.mp (by simp [hempty.1.1.2])
    have h3 : doc.cask = [] := by
      simp at hempty
      exact List.isEmpty_iff.mp (by simp [hempty.1.2])
    have h4 : doc.mas = [] := by
      simp at hempty
      exact List.isEmpty_iff.mp (by simp [hempty.2])
    simp [bundleInstall, hempty, entryRuns, h1, h2, h3, h4, allOk,
      fullTrace, strictTrace]
  · simp only [bundleInstall, hempty, if_false, Bool.false_eq_true,
      runSection_spec, entryRuns]
    cases strict with
    | false =>
        simp [allOk_append, fullTrace_append, List.append_assoc,
          Bool.and_assoc]
    | true =>
        by_cases h1 : allOk (doc.tap.map (fun p => installTap env p.1 p.2))
          <;> by_cases h2 : allOk (doc.brew.map
                (fun p => installBrew env p.1 p.2 true))
          <;> by_cases h3 : allOk (doc.cask.map
                (fun p => installCask env p.1 p.2 true))
          <;> by_cases h4 : allOk (doc.mas.map
                (fun p => installMas env p.1 p.2 true))
          <;> simp [h1, h2, h3, h4, allOk_append, fullTrace_append,
                strictTrace_append, strictTrace_of_allOk, List.append_assoc,
                Bool.and_assoc]

/-- C5: replay returns overall success iff every entry succeeded; in
non-strict mode the trace is the concatenation of every entry attempt
(processing continues past failures), while in strict mode the trace stops
at the first failing entry (all remaining entries and phases are cut off);
and a version mismatch on an installed package is itself a hard per-entry
failure in strict mode. -/
theorem replay_aggregate (env : Env) (doc : LockFile) (strict : Bool) :
    ((bundleInstall env doc strict).1 = true ↔
      ∀ r ∈ entryRuns env strict doc, r.1 = true)
    ∧ (bundleInstall env doc false).2 = fullTrace (entryRuns env false doc)
    ∧ (bundleInstall env doc true).2 = strictTrace (entryRuns env true doc)
    ∧ (∀ name entry, (getPackageVersion env .brew name).isSome = true →
        getPackageVersion env .brew name ≠ some (BrewEntry.version entry) →
        installBrew env name entry true = (false, [])) := by
  refine ⟨?_, ?_, ?_, ?_⟩
  · rw [bundleInstall_eq]
    simp [allOk, List.all_eq_true]
  · rw [bundleInstall_eq]
    simp
  · rw [bundleInstall_eq]
    by_cases h : allOk (entryRuns env true doc)
    · simp [h, strictTrace_of_allOk _ h]
    · have h' : allOk (entryRuns env true doc) = false := by
        cases hv : allOk (entryRuns env true doc) with
        | false => rfl
        | true => exact absurd hv h
      simp [h']
  · intro name entry hsome hne
    simp only [installBrew, if_neg hne, hsome, Bool.true_and, if_true]

/-- C5 witness: `replay_aggregate` on the strict replay of `docBrewX`
against an environment where `x` is installed at a different version: the
overall result is failure with an empty trace, and the mismatch is a hard
per-entry failure. -/
theorem replay_aggregate_wit :
    ((bundleInstall envDriftX docBrewX true).1 = true ↔
      ∀ r ∈ entryRuns envDriftX true docBrewX, r.1 = true)
    ∧ (bundleInstall envDriftX docBrewX true).2 =
        strictTrace (entryRuns envDriftX true docBrewX)
    ∧ installBrew envDriftX "x" { version := "1.0" } true = (false, [])
    ∧ (bundleInstall envDriftX docBrewX true).1 = false := by
  have h := replay_aggregate envDriftX docBrewX true
  refine ⟨h.1, h.2.2.1, ?_, ?_⟩
  · exact h.2.2.2 "x" { version := "1.0" } (by decide) (by decide)
  · decide

/-- C6: an entry whose live version equals the recorded version is reported
as a success and installation is skipped — the trace of primitive
invocations for that entry is empty — for formulae, casks and store apps,
in both replay generations. -/
theorem replay_skip_on_match (env : Env) (strict : Bool) (name : String)
    (be : BrewEntry) (ce : CaskEntry) (me : MasEntry) (e : LockEntry) :
    (getPackageVersion env .brew name = some be.version →
      installBrew env name be strict = (true, []))
    ∧ (getPackageVersion env .cask name = some ce.version →
      installCask env name ce strict = (true, []))
    ∧ (getPackageVersion env .mas name = some me.version →
      installMas env name me strict = (true, []))
    ∧ (e.type ≠ .tap →
      jsEqOpt (getPackageVersion env e.type e.name) e.version = true →
      installEntry env e strict = (true, [])) := by
  refine ⟨fun h => ?_, fun h => ?_, fun h => ?_, fun ht h => ?_⟩
  · simp [installBrew, h]
  · simp [installCask, h]
  · simp [installMas, h]
  · simp [installEntry, ht, h]

/-- C6 witness: `replay_skip_on_match` with git installed at exactly the
recorded version 2.43.0. -/
theorem replay_skip_on_match_wit :
    installBrew envGit "git" brGit true = (true, [])
    ∧ installCask envGit "git" { version := "2.43.0" } true = (true, [])
    ∧ installMas envGit "Xcode" { id := 1, version := "15.2" } true =
        (true, [])
    ∧ installEntry envGit
        { type := .brew, name := "git", version := some "2.43.0" } true =
        (true, []) := by
  have h := replay_skip_on_match envGit true "git" brGit
    { version := "2.43.0" } { id := 1, version := "15.2" }
    { type := .brew, name := "git", version := some "2.43.0" }
  refine ⟨h.1 (by decide), h.2.1 (by decide), ?_, h.2.2.2 (by decide)
    (by decide)⟩
  exact replay_skip_on_match envGit true "Xcode" brGit
    { version := "2.43.0" } { id := 1, version := "15.2" }
    { type := .brew, name := "git", version := some "2.43.0" }
    |>.2.2.1 (by decide)

/-- C9 counterexample: the claim says a mas entry lacking a numeric id is a
hard per-entry failure in every case, but the entry-list installer first
compares versions: with the recorded version equal to the live one, an
id-less mas entry is reported as a success (and no primitive is invoked),
in both strict and non-strict mode. -/
theorem mas_missing_id_cex :
    masNoId.id = none ∧ masNoId.type = .mas
    ∧ installEntry envXcode masNoId false = (true, [])
    ∧ installEntry envXcode masNoId true = (true, []) := by
  refine ⟨rfl, rfl, ?_, ?_⟩ <;> decide

/-- C9 (amended): a mas entry lacking a numeric id whose live version is
not strictly equal to its recorded version (absent, different, or no
recorded version) is a hard per-entry failure in both modes, and the
install primitive is never invoked for it. -/
theorem mas_missing_id_spec (env : Env) (e : LockEntry) (strict : Bool)
    (htype : e.type = .mas) (hid : e.id = none)
    (hne : jsEqOpt (getPackageVersion env .mas e.name) e.version = false) :
    installEntry env e strict = (false, []) := by
  have hcur : getPackageVersion env e.type e.name =
      getPackageVersion env .mas e.name := by rw [htype]
  simp only [installEntry, htype, hcur, hne]
  cases hs : (getPackageVersion env .mas e.name).isSome with
  | false => simp [hid]
  | true => cases strict <;> simp [hid]

/-- C9 witness: `mas_missing_id_spec` on an id-less Xcode entry whose
recorded version 15.3 differs from the live 15.2, in both modes. -/
theorem mas_missing_id_spec_wit :
    installEntry envXcode masNoIdDrift false = (false, [])
    ∧ installEntry envXcode masNoIdDrift true = (false, []) :=
  ⟨mas_missing_id_spec envXcode masNoIdDrift false rfl rfl (by decide),
   mas_missing_id_spec envXcode masNoIdDrift true rfl rfl (by decide)⟩


/-! ### Codec lemmas: the printed document parses back -/

/-! ### Trivia lemmas -/
theorem length_dropWhile (p : Char → Bool) (l : List Char) :
    (l.dropWhile p).length ≤ l.length := by
  induction l with
  | nil => simp
  | cons c t ih =>
      rw [List.dropWhile_cons]
      by_cases h : p c = true
      · simp only [h, if_true, List.length_cons]
        omega
      · simp only [h, if_false]
        simp

theorem dropWhile_all_append (p : Char → Bool) (a b : List Char)
    (h : ∀ c ∈ a, p c = true) :
    (a ++ b).dropWhile p = b.dropWhile p := by
  induction a with
  | nil => rfl
  | cons c t ih =>
      rw [List.cons_append, List.dropWhile_cons, if_pos (h c (by simp))]
      exact ih (fun c hc => h c (by simp [hc]))

theorem dropBlock_length_le (l : List Char) :
    (dropBlock l).length ≤ l.length := by
  induction l with
  | nil => simp [dropBlock]
  | cons c t ih =>
      rw [dropBlock]
      by_cases h : (c == '*' && t.head? == some '/') = true
      · rw [if_pos h]
        cases t with
        | nil => simp
        | cons x xs =>
            simp [List.length_cons]
            omega
      · rw [if_neg h]
        simp only [List.length_cons]
        omega

theorem skipCmts_succ (fuel : Nat) (cs : List Char) :
    skipCmts (fuel + 1) cs =
      (match cs.dropWhile wsChar with
       | c1 :: c2 :: rest =>
           if c1 == '/' && c2 == '/' then
             skipCmts fuel (rest.dropWhile (fun c => !(c == '\n')))
           else if c1 == '/' && c2 == '*' then
             skipCmts fuel (dropBlock rest)
           else c1 :: c2 :: rest
       | short => short) := rfl

theorem skipCmts_fuel :
    ∀ (n : Nat) (cs : List Char), cs.length ≤ n → ∀ f g, cs.length < f →
      cs.length < g → skipCmts f cs = skipCmts g cs := by
  intro n
  induction n with
  | zero =>
      intro cs hlen f g hf hg
      have hnil : cs = [] := List.length_eq_zero.mp (Nat.le_zero.mp hlen)
      subst hnil
      cases f with
      | zero => omega
      | succ f' =>
          cases g with
          | zero => omega
          | succ g' => rfl
  | succ n ih =>
      intro cs hlen f g hf hg
      cases f with
      | zero => omega
      | succ f' =>
          cases g with
          | zero => omega
          | succ g' =>
              rw [skipCmts_succ, skipCmts_succ]
              have hdl := length_dropWhile wsChar cs
              rcases hd : cs.dropWhile wsChar with _ | ⟨c1, d1⟩
              · rfl
              · rcases d1 with _ | ⟨c2, rest⟩
                · rfl
                · rw [hd] at hdl
                  simp only [List.length_cons] at hdl
                  dsimp only
                  by_cases h1 : (c1 == '/' && c2 == '/') = true
                  · rw [if_pos h1, if_pos h1]
                    have hx := length_dropWhile
                      (fun c => !(c == '\n')) rest
                    exact ih _ (by omega) f' g' (by omega) (by omega)
                  · rw [if_neg h1, if_neg h1]
                    by_cases h2 : (c1 == '/' && c2 == '*') = true
                    · rw [if_pos h2, if_pos h2]
                      have hx := dropBlock_length_le rest
                      exact ih _ (by omega) f' g' (by omega) (by omega)
                    · rw [if_neg h2, if_neg h2]

theorem skipCmts_eq_skipTrivia (f : Nat) (cs : List Char)
    (hf : cs.length < f) : skipCmts f cs = skipTrivia cs :=
  skipCmts_fuel cs.length cs (Nat.le_refl _) f (cs.length + 1) hf
    (Nat.lt_succ_self _)

theorem skipTrivia_nil : skipTrivia [] = [] := rfl

theorem skipTrivia_nohit (c : Char) (r : List Char)
    (hws : wsChar c = false) (hsl : c ≠ '/') :
    skipTrivia (c :: r) = c :: r := by
  rw [skipTrivia, skipCmts_succ]
  rw [List.dropWhile_cons, if_neg (by simp [hws])]
  rcases r with _ | ⟨c2, rest⟩
  · rfl
  · dsimp only
    have h1 : (c == '/' && c2 == '/') = false := by
      simp [beq_false_of_ne hsl]
    have h2 : (c == '/' && c2 == '*') = false := by
      simp [beq_false_of_ne hsl]
    rw [if_neg (by simp [h1]), if_neg (by simp [h2])]

theorem skipTrivia_ws (a cs : List Char) (h : ∀ c ∈ a, wsChar c = true) :
    skipTrivia (a ++ cs) = skipTrivia cs := by
  rw [skipTrivia, skipTrivia, skipCmts_succ, skipCmts_succ,
    dropWhile_all_append wsChar a cs h]
  have hdl := length_dropWhile wsChar cs
  rcases hd : cs.dropWhile wsChar with _ | ⟨c1, d1⟩
  · rfl
  · rcases d1 with _ | ⟨c2, rest⟩
    · rfl
    · rw [hd] at hdl
      simp only [List.length_cons] at hdl
      dsimp only
      have hal : cs.length ≤ (a ++ cs).length := by simp
      by_cases h1 : (c1 == '/' && c2 == '/') = true
      · rw [if_pos h1, if_pos h1]
        have hx := length_dropWhile (fun c => !(c == '\n')) rest
        exact skipCmts_fuel _ _ (Nat.le_refl _) _ _ (by omega) (by omega)
      · rw [if_neg h1, if_neg h1]
        by_cases h2 : (c1 == '/' && c2 == '*') = true
        · rw [if_pos h2, if_pos h2]
          have hx := dropBlock_length_le rest
          exact skipCmts_fuel _ _ (Nat.le_refl _) _ _ (by omega) (by omega)
        · rw [if_neg h2, if_neg h2]

theorem skipTrivia_lineComment (text cs : List Char)
    (h : ∀ x ∈ text, (x == '\n') = false) :
    skipTrivia ('/' :: '/' :: (text ++ '\n' :: cs)) = skipTrivia cs := by
  rw [skipTrivia, skipCmts_succ]
  rw [show List.dropWhile wsChar
      ('/' :: '/' :: (text ++ '\n' :: cs)) =
      '/' :: '/' :: (text ++ '\n' :: cs) from by
    rw [List.dropWhile_cons, if_neg (by simp [wsChar])]]
  dsimp only
  rw [if_pos (by simp)]
  rw [show List.dropWhile (fun c => !(c == '\n')) (text ++ '\n' :: cs) =
      '\n' :: cs from by
    rw [dropWhile_all_append _ text _ (fun c hc => by simp [h c hc]),
      List.dropWhile_cons]
    simp]
  rw [show ('\n' :: cs) = [Char.ofNat 10] ++ cs from rfl]
  rw [skipCmts_fuel ([Char.ofNat 10] ++ cs).length _ (Nat.le_refl _)
    _ (([Char.ofNat 10] ++ cs).length + 1) (by simp; omega)
    (Nat.lt_succ_self _)]
  exact skipTrivia_ws [Char.ofNat 10] cs (by intro c hc; simp at hc; simp [hc, wsChar])

/-! ### String-literal lemmas -/
theorem hexVal_hexCh (d : Nat) (h : d < 16) : hexVal (hexCh d) = some d := by
  interval_cases d <;> decide

theorem char_ofNat_toNat (c : Char) : Char.ofNat c.toNat = c :=
  Char.ofNat_toNat c

theorem pstrAux_escChar (c : Char) (acc rest : List Char) :
    pstrAux acc (escChar c ++ rest) = pstrAux (c :: acc) rest := by
  by_cases h1 : c = '"'
  · subst h1
    rfl
  · by_cases h2 : c = '\\'
    · subst h2
      rfl
    · have hb1 : (c == '"') = false := beq_false_of_ne h1
      have hb2 : (c == '\\') = false := beq_false_of_ne h2
      by_cases h3 : c.toNat = 8
      · simp only [escChar, hb1, hb2, h3, Bool.false_eq_true, if_false,
          if_true]
        rw [show c = Char.ofNat 8 from h3 ▸ (char_ofNat_toNat c).symm]
        rfl
      · by_cases h4 : c.toNat = 9
        · simp only [escChar, hb1, hb2, h3, h4, Bool.false_eq_true,
            if_false, if_true]
          rw [show c = Char.ofNat 9 from h4 ▸ (char_ofNat_toNat c).symm]
          rfl
        · by_cases h5 : c.toNat = 10
          · simp only [escChar, hb1, hb2, h3, h4, h5, Bool.false_eq_true,
              if_false, if_true]
            rw [show c = Char.ofNat 10 from h5 ▸ (char_ofNat_toNat c).symm]
            rfl
          · by_cases h6 : c.toNat = 12
            · simp only [escChar, hb1, hb2, h3, h4, h5, h6,
                Bool.false_eq_true, if_false, if_true]
              rw [show c = Char.ofNat 12 from
                h6 ▸ (char_ofNat_toNat c).symm]
              rfl
            · by_cases h7 : c.toNat = 13
              · simp only [escChar, hb1, hb2, h3, h4, h5, h6, h7,
                  Bool.false_eq_true, if_false, if_true]
                rw [show c = Char.ofNat 13 from
                  h7 ▸ (char_ofNat_toNat c).symm]
                rfl
              · by_cases h8 : c.toNat < 32
                · simp only [escChar, hb1, hb2, h3, h4, h5, h6, h7, h8,
                    Bool.false_eq_true, if_false, if_true, beq_iff_eq]
                  rw [show ('\\' :: 'u' :: '0' :: '0' ::
                      hexCh (c.toNat / 16) :: hexCh (c.toNat % 16) :: []) ++
                      rest =
                      '\\' :: 'u' :: '0' :: '0' ::
                      hexCh (c.toNat / 16) :: hexCh (c.toNat % 16) ::
                      rest from rfl]
                  rw [pstrAux]
                  rw [hexVal_hexCh (c.toNat / 16) (by omega),
                    hexVal_hexCh (c.toNat % 16) (by omega)]
                  dsimp only
                  rw [show hexVal '0' = some 0 from rfl]
                  dsimp only
                  rw [show ((0 * 16 + 0) * 16 + c.toNat / 16) * 16 +
                      c.toNat % 16 = c.toNat from by omega]
                  rw [if_pos (Or.inl (by omega : c.toNat < 0xd800))]
                  rw [char_ofNat_toNat]
                · simp only [escChar, hb1, hb2, h3, h4, h5, h6, h7, h8,
                    Bool.false_eq_true, if_false, beq_iff_eq]
                  rw [List.cons_append, List.nil_append]
                  rw [pstrAux.eq_def]
                  simp [h1, h2, h8]

theorem pstrAux_escChars (l : List Char) :
    ∀ (acc rest : List Char),
      pstrAux acc (escChars l ++ '"' :: rest) =
        some (String.mk (acc.reverse ++ l), rest) := by
  induction l with
  | nil => intro acc rest; simp [escChars, pstrAux]
  | cons c t ih =>
      intro acc rest
      rw [show escChars (c :: t) = escChar c ++ escChars t from rfl,
        List.append_assoc, pstrAux_escChar, ih]
      simp

theorem pstring_rt (s : String) (rest : List Char) :
    pstring (escChars s.data ++ '"' :: rest) = some (s, rest) := by
  rw [pstring, pstrAux_escChars]
  cases s
  simp

/-! ### Number lemmas -/
theorem digitCh_facts (d : Nat) (h : d < 10) :
    (digitCh d).toNat = 48 + d ∧ isDigitCh (digitCh d) = true := by
  interval_cases d <;> exact ⟨rfl, rfl⟩

theorem digit_excludes (c : Char) (h : isDigitCh c = true) :
    c ≠ '-' ∧ c ≠ '.' ∧ c ≠ 'e' ∧ c ≠ 'E' ∧ c ≠ 'n' ∧ c ≠ 't' ∧ c ≠ 'f' ∧
    c ≠ '"' ∧ c ≠ '[' ∧ c ≠ '{' ∧ c ≠ '}' ∧ c ≠ ']' ∧ c ≠ ',' ∧ c ≠ '/' ∧
    wsChar c = false := by
  refine ⟨?_, ?_, ?_, ?_, ?_, ?_, ?_, ?_, ?_, ?_, ?_, ?_, ?_, ?_, ?_⟩ <;>
    try (intro he; subst he; exact absurd h (by decide))
  have hs1 : c ≠ ' ' := fun he => by subst he; exact absurd h (by decide)
  have hs2 : c ≠ '\n' := fun he => by subst he; exact absurd h (by decide)
  have hs3 : c ≠ '\t' := fun he => by subst he; exact absurd h (by decide)
  have hs4 : c ≠ '\r' := fun he => by subst he; exact absurd h (by decide)
  simp [wsChar, beq_false_of_ne hs1, beq_false_of_ne hs2,
    beq_false_of_ne hs3, beq_false_of_ne hs4]

theorem natChars_all_digits (n : Nat) :
    ∀ c ∈ natChars n, isDigitCh c = true := by
  intro c hc
  rw [natChars] at hc
  by_cases h0 : n = 0
  · simp [h0] at hc
    subst hc
    decide
  · simp only [h0, if_false, Bool.false_eq_true, List.mem_reverse,
      List.mem_map] at hc
    obtain ⟨d, hd, rfl⟩ := hc
    exact (digitCh_facts d (Nat.digits_lt_base (by omega) hd)).2

theorem natChars_ne_nil (n : Nat) : natChars n ≠ [] := by
  rw [natChars]
  by_cases h0 : n = 0
  · simp [h0]
  · simp only [h0, if_false, Bool.false_eq_true, ne_eq,
      List.reverse_eq_nil_iff, List.map_eq_nil_iff]
    exact Nat.digits_ne_nil_iff_ne_zero.mpr h0

theorem digitsVal_digits (l : List Nat) (h : ∀ d ∈ l, d < 10) :
    digitsVal ((l.map digitCh).reverse) = Nat.ofDigits 10 l := by
  induction l with
  | nil => rfl
  | cons d t ih =>
      rw [List.map_cons, List.reverse_cons, digitsVal, List.foldl_append]
      have hd : d < 10 := h d (by simp)
      rw [show (List.foldl (fun a c => a * 10 + (c.toNat - 48)) 0
          ((t.map digitCh).reverse)) = Nat.ofDigits 10 t from
        ih (fun d hd => h d (by simp [hd]))]
      simp only [List.foldl_cons, List.foldl_nil]
      rw [(digitCh_facts d hd).1, Nat.ofDigits_cons]
      push_cast
      omega

theorem digitsVal_natChars (n : Nat) : digitsVal (natChars n) = n := by
  rw [natChars]
  by_cases h0 : n = 0
  · simp [h0, digitsVal]
  · simp only [h0, if_false, Bool.false_eq_true]
    rw [digitsVal_digits _ (fun d hd => Nat.digits_lt_base (by omega) hd)]
    exact_mod_cast Nat.ofDigits_digits 10 n

theorem takeWhile_all_append (p : Char → Bool) (a b : List Char)
    (ha : ∀ c ∈ a, p c = true)
    (hb : ∀ c, b.head? = some c → p c = false) :
    (a ++ b).takeWhile p = a ∧ (a ++ b).dropWhile p = b := by
  induction a with
  | nil =>
      cases b with
      | nil => exact ⟨rfl, rfl⟩
      | cons c t =>
          rw [List.nil_append, List.takeWhile_cons, List.dropWhile_cons]
          simp [hb c rfl]
  | cons c t ih =>
      have hc := ha c (by simp)
      rw [List.cons_append, List.takeWhile_cons, List.dropWhile_cons]
      have := ih (fun x hx => ha x (by simp [hx]))
      simp [hc, this.1, this.2]

theorem pnat_rt (n : Nat) (rest : List Char) (hr : numDelim rest) :
    pnat (natChars n ++ rest) = some (n, rest) := by
  have hsplit := takeWhile_all_append isDigitCh (natChars n) rest
    (natChars_all_digits n) (fun c hc => (hr c hc).1)
  rw [pnat, hsplit.1, hsplit.2]
  rw [show (natChars n).isEmpty = false from by
    cases hne : natChars n with
    | nil => exact absurd hne (natChars_ne_nil n)
    | cons a b => rfl]
  simp only [Bool.false_eq_true, if_false]
  cases rest with
  | nil => simp [digitsVal_natChars]
  | cons c t =>
      obtain ⟨hd, hdot, he, hE⟩ := hr c rfl
      have h1 : c ≠ '.' := hdot
      have h2 : c ≠ 'e' := he
      have h3 : c ≠ 'E' := hE
      simp [h1, h2, h3, digitsVal_natChars]

theorem pnumber_rt (i : Int) (rest : List Char) (hr : numDelim rest) :
    pnumber (intChars i ++ rest) = some (.jnum i, rest) := by
  cases i with
  | ofNat m =>
      rw [intChars]
      obtain ⟨c0, t0, h0⟩ : ∃ c0 t0, natChars m = c0 :: t0 := by
        cases hne : natChars m with
        | nil => exact absurd hne (natChars_ne_nil m)
        | cons a b => exact ⟨a, b, rfl⟩
      have hdig : isDigitCh c0 = true :=
        natChars_all_digits m c0 (by simp [h0])
      have hminus : c0 ≠ '-' := (digit_excludes c0 hdig).1
      rw [h0, pnumber.eq_def]
      simp only [List.cons_append]
      simp [hminus, ← List.cons_append, ← h0, pnat_rt m rest hr]
      rw [show natChars m ++ rest = c0 :: (t0 ++ rest) from by
        rw [h0]; rfl]
      simp [hminus]
  | negSucc m =>
      rw [intChars, pnumber.eq_def]
      simp only [List.cons_append]
      rw [pnat_rt (m + 1) rest hr]
      simp [Int.negSucc_eq]

/-! ### Round-trip auxiliary lemmas -/
theorem pad_ws (i : Nat) : ∀ c ∈ pad i, wsChar c = true := by
  intro c hc
  rw [pad] at hc
  rw [List.eq_of_mem_replicate hc]
  rfl

theorem nl_pad_ws (i : Nat) : ∀ c ∈ '\n' :: pad i, wsChar c = true := by
  intro c hc
  rcases List.mem_cons.mp hc with rfl | hc
  · rfl
  · exact pad_ws i c hc

theorem lookup_append_split (n : String) (a b : List (String × α)) :
    List.lookup n (a ++ b) =
      (match List.lookup n a with
       | some v => some v
       | none => List.lookup n b) := by
  induction a with
  | nil => rfl
  | cons p t ih =>
      by_cases hk : (n == p.1) = true
      · rw [List.cons_append, lookup_cons_hit n p _ hk,
          lookup_cons_hit n p t hk]
      · have hk' : (n == p.1) = false := by simpa using hk
        rw [List.cons_append, lookup_cons_miss n p _ hk',
          lookup_cons_miss n p t hk', ih]

theorem nodup_split (k : String) (v : α) :
    ∀ (a b : List (String × α)), nodupKeys (a ++ (k, v) :: b) = true →
      a.lookup k = none := by
  intro a
  induction a with
  | nil => intro b _; rfl
  | cons p t ih =>
      intro b h
      rcases p with ⟨ak, av⟩
      rw [List.cons_append] at h
      rw [nodupKeys] at h
      simp only [Bool.and_eq_true, Option.isNone_iff_eq_none] at h
      by_cases hk : (k == ak) = true
      · exfalso
        have hke : k = ak := by simpa using hk
        subst hke
        rw [lookup_append_split] at h
        rcases hl : List.lookup k t with _ | w
        · rw [hl] at h
          have : List.lookup k ((k, v) :: b) = some v :=
            lookup_cons_hit k (k, v) b (by simp)
          rw [this] at h
          exact absurd h.1 (by simp)
        · rw [hl] at h
          exact absurd h.1 (by simp)
      · have hk' : (k == ak) = false := by simpa using hk
        rw [lookup_cons_miss k (ak, av) t hk']
        exact ih b h.2

theorem nodupKeys_tail (p : String × α) (t : List (String × α))
    (h : nodupKeys (p :: t) = true) : nodupKeys t = true := by
  rcases p with ⟨k, v⟩
  rw [nodupKeys] at h
  simp only [Bool.and_eq_true] at h
  exact h.2

theorem objInsert_fresh (l : List (String × α)) (k : String) (v : α)
    (h : l.lookup k = none) : objInsert l k v = l ++ [(k, v)] := by
  rw [objInsert, h]
  rfl

theorem pjson_head (v : Json) (ind : Nat) :
    ∃ c t, pjson ind v = c :: t ∧ wsChar c = false ∧ c ≠ '/' ∧ c ≠ ']' ∧
      c ≠ '}' := by
  cases v with
  | jnull => exact ⟨'n', _, by rw [pjson], by decide, by decide, by decide,
      by decide⟩
  | jbool b =>
      cases b with
      | true => exact ⟨'t', _, by rw [pjson], by decide, by decide,
          by decide, by decide⟩
      | false => exact ⟨'f', _, by rw [pjson], by decide, by decide,
          by decide, by decide⟩
  | jstr s => exact ⟨'"', _, by rw [pjson, strChars], by decide, by decide,
      by decide, by decide⟩
  | jarr items =>
      cases items with
      | nil => exact ⟨'[', _, by rw [pjson], by decide, by decide,
          by decide, by decide⟩
      | cons v vs => exact ⟨'[', _, by rw [pjson], by decide, by decide,
          by decide, by decide⟩
  | jobj fields =>
      cases fields with
      | nil => exact ⟨'{', _, by rw [pjson], by decide, by decide,
          by decide, by decide⟩
      | cons f fs =>
          rcases f with ⟨k, w⟩
          exact ⟨'{', _, by rw [pjson], by decide, by decide, by decide,
            by decide⟩
  | jnum n =>
      cases n with
      | negSucc m =>
          exact ⟨'-', _, by rw [pjson, intChars], by decide, by decide,
            by decide, by decide⟩
      | ofNat m =>
          obtain ⟨c0, t0, h0⟩ : ∃ c0 t0, natChars m = c0 :: t0 := by
            cases hne : natChars m with
            | nil => exact absurd hne (natChars_ne_nil m)
            | cons a b => exact ⟨a, b, rfl⟩
          have hdig : isDigitCh c0 = true :=
            natChars_all_digits m c0 (by simp [h0])
          obtain ⟨_, _, _, _, _, _, _, _, _, _, hcb, hbk, _, hsl, hws⟩ :=
            digit_excludes c0 hdig
          exact ⟨c0, t0, by rw [pjson, intChars, h0], hws, hsl, hbk, hcb⟩

theorem pjson_len_pos (v : Json) (ind : Nat) : 0 < (pjson ind v).length := by
  obtain ⟨c, t, h, _⟩ := pjson_head v ind
  simp [h]

theorem pstep_value_ws (f : Nat) (a cs : List Char)
    (h : ∀ c ∈ a, wsChar c = true) :
    pstep f .value (a ++ cs) = pstep f .value cs := by
  cases f with
  | zero => rfl
  | succ f' =>
      show pstep (f' + 1) .value (a ++ cs) = pstep (f' + 1) .value cs
      simp only [pstep]
      rw [skipTrivia_ws a cs h]

theorem pstep_members_ws (f : Nat) (acc : List (String × Json))
    (a cs : List Char) (h : ∀ c ∈ a, wsChar c = true) :
    pstep f (.members acc) (a ++ cs) = pstep f (.members acc) cs := by
  cases f with
  | zero => rfl
  | succ f' =>
      simp only [pstep]
      rw [skipTrivia_ws a cs h]

/-! ### `pstep` unfolding lemmas via the continuation helpers -/
theorem pstep_value_eq (f : Nat) (cs : List Char) :
    pstep (f + 1) .value cs =
      (match skipTrivia cs with
       | 'n' :: 'u' :: 'l' :: 'l' :: rest => some (.jnull, rest)
       | 't' :: 'r' :: 'u' :: 'e' :: rest => some (.jbool true, rest)
       | 'f' :: 'a' :: 'l' :: 's' :: 'e' :: rest => some (.jbool false, rest)
       | '"' :: rest => (pstring rest).map (fun p => (Json.jstr p.1, p.2))
       | '[' :: rest => parr f rest
       | '{' :: rest => pobj f rest
       | c :: rest =>
           if c == '-' || isDigitCh c then pnumber (c :: rest) else none
       | [] => none) := rfl

theorem pstep_elems_some (f : Nat) (acc : List Json) (cs r : List Char)
    (v : Json) (h : pstep f .value cs = some (v, r)) :
    pstep (f + 1) (.elems acc) cs = pelemsNext f acc v r := by
  show (match pstep f .value cs with
        | none => none
        | some (v, r) => pelemsNext f acc v r) = pelemsNext f acc v r
  rw [h]

theorem pstep_members_quote (f : Nat) (acc : List (String × Json))
    (cs r : List Char) (h : skipTrivia cs = '"' :: r) :
    pstep (f + 1) (.members acc) cs = pmembersKey f acc r := by
  show (match skipTrivia cs with
        | '"' :: r => pmembersKey f acc r
        | _ => none) = pmembersKey f acc r
  rw [h]
  rfl

theorem parr_close (f : Nat) (rest r' : List Char)
    (h : skipTrivia rest = ']' :: r') : parr f rest = some (.jarr [], r') := by
  unfold parr
  rw [h]
  rfl

theorem parr_go (f : Nat) (rest t : List Char) (c : Char)
    (h : skipTrivia rest = c :: t) (hne : c ≠ ']') :
    parr f rest = pstep f (.elems []) rest := by
  unfold parr
  rw [h]
  simp [hne]

theorem pobj_close (f : Nat) (rest r' : List Char)
    (h : skipTrivia rest = '}' :: r') : pobj f rest = some (.jobj [], r') := by
  unfold pobj
  rw [h]
  rfl

theorem pobj_go (f : Nat) (rest t : List Char) (c : Char)
    (h : skipTrivia rest = c :: t) (hne : c ≠ '}') :
    pobj f rest = pstep f (.members []) rest := by
  unfold pobj
  rw [h]
  simp [hne]

theorem pelemsNext_comma (f : Nat) (acc : List Json) (v : Json)
    (r r' : List Char) (h : skipTrivia r = ',' :: r') :
    pelemsNext f acc v r = pstep f (.elems (acc ++ [v])) r' := by
  unfold pelemsNext
  rw [h]
  rfl

theorem pelemsNext_close (f : Nat) (acc : List Json) (v : Json)
    (r r' : List Char) (h : skipTrivia r = ']' :: r') :
    pelemsNext f acc v r = some (.jarr (acc ++ [v]), r') := by
  unfold pelemsNext
  rw [h]
  rfl

theorem pmembersKey_eq (f : Nat) (acc : List (String × Json)) (r : List Char)
    (key : String) (r1 : List Char) (h : pstring r = some (key, r1)) :
    pmembersKey f acc r = pmembersColon f acc key r1 := by
  unfold pmembersKey
  rw [h]

theorem pmembersColon_eq (f : Nat) (acc : List (String × Json)) (key : String)
    (r1 r2 : List Char) (h : skipTrivia r1 = ':' :: r2) :
    pmembersColon f acc key r1 = pmembersVal f acc key r2 := by
  unfold pmembersColon
  rw [h]
  rfl

theorem pmembersVal_eq (f : Nat) (acc : List (String × Json)) (key : String)
    (r2 : List Char) (v : Json) (r3 : List Char)
    (h : pstep f .value r2 = some (v, r3)) :
    pmembersVal f acc key r2 = pmembersNext f acc key v r3 := by
  unfold pmembersVal
  rw [h]

theorem pmembersNext_comma (f : Nat) (acc : List (String × Json))
    (key : String) (v : Json) (r3 r4 : List Char)
    (h : skipTrivia r3 = ',' :: r4) :
    pmembersNext f acc key v r3 =
      pstep f (.members (objInsert acc key v)) r4 := by
  unfold pmembersNext
  rw [h]
  rfl

theorem pmembersNext_close (f : Nat) (acc : List (String × Json))
    (key : String) (v : Json) (r3 r4 : List Char)
    (h : skipTrivia r3 = '}' :: r4) :
    pmembersNext f acc key v r3 = some (.jobj (objInsert acc key v), r4) := by
  unfold pmembersNext
  rw [h]
  rfl

theorem numDelim_cons (c : Char) (r : List Char) (h1 : isDigitCh c = false)
    (h2 : c ≠ '.') (h3 : c ≠ 'e') (h4 : c ≠ 'E') : numDelim (c :: r) := by
  intro d hd
  rw [List.head?_cons] at hd
  cases hd
  exact ⟨h1, h2, h3, h4⟩

theorem parse_print :
    ∀ fuel : Nat,
    (∀ (v : Json) (ind : Nat) (rest : List Char),
      (pjson ind v).length < fuel → jsonKeysOk v = true → numDelim rest →
      pstep fuel .value (pjson ind v ++ rest) = some (v, rest))
    ∧ (∀ (vs : List Json) (v : Json) (acc : List Json) (ind : Nat)
        (rest : List Char),
      (pitems (ind + 1) v vs).length < fuel → jsonKeysOk v = true →
      itemsKeysOk vs = true →
      pstep fuel (.elems acc)
        ('\n' :: (pitems (ind + 1) v vs ++ '\n' :: (pad ind ++ ']' :: rest)))
        = some (.jarr (acc ++ v :: vs), rest))
    ∧ (∀ (fs : List (String × Json)) (k : String) (v : Json)
        (acc : List (String × Json)) (ind : Nat) (rest : List Char),
      (pfields (ind + 1) k v fs).length < fuel → jsonKeysOk v = true →
      fieldsKeysOk fs = true → nodupKeys (acc ++ (k, v) :: fs) = true →
      pstep fuel (.members acc)
        ('\n' :: (pfields (ind + 1) k v fs ++ '\n' ::
          (pad ind ++ '}' :: rest)))
        = some (.jobj (acc ++ (k, v) :: fs), rest)) := by
  intro fuel
  induction fuel using Nat.strong_induction_on with
  | _ fuel ih =>
  refine ⟨?_, ?_, ?_⟩
  · -- values
    intro v ind rest hlen hkeys hnd
    cases fuel with
    | zero => exact absurd hlen (by omega)
    | succ f =>
        simp only [pstep]
        cases v with
        | jnull =>
            rw [show pjson ind .jnull ++ rest =
              'n' :: 'u' :: 'l' :: 'l' :: rest from by rw [pjson]; rfl]
            rw [skipTrivia_nohit 'n' _ (by decide) (by decide)]
            rfl
        | jbool b =>
            cases b with
            | true =>
                rw [show pjson ind (.jbool true) ++ rest =
                  't' :: 'r' :: 'u' :: 'e' :: rest from by rw [pjson]; rfl]
                rw [skipTrivia_nohit 't' _ (by decide) (by decide)]
                rfl
            | false =>
                rw [show pjson ind (.jbool false) ++ rest =
                  'f' :: 'a' :: 'l' :: 's' :: 'e' :: rest from by
                    rw [pjson]; rfl]
                rw [skipTrivia_nohit 'f' _ (by decide) (by decide)]
                rfl
        | jstr str =>
            rw [show pjson ind (.jstr str) ++ rest =
              '"' :: (escChars str.data ++ '"' :: rest) from by
                rw [pjson, strChars]; simp]
            rw [skipTrivia_nohit '"' _ (by decide) (by decide)]
            show Option.map (fun p => (Json.jstr p.1, p.2))
              (pstring (escChars str.data ++ '"' :: rest)) =
              some (.jstr str, rest)
            rw [pstring_rt str rest]
            rfl
        | jnum n =>
            cases n with
            | negSucc m =>
                rw [show pjson ind (.jnum (.negSucc m)) ++ rest =
                  '-' :: (natChars (m + 1) ++ rest) from by
                    rw [pjson, intChars]; simp]
                rw [skipTrivia_nohit '-' _ (by decide) (by decide)]
                show pnumber ('-' :: (natChars (m + 1) ++ rest)) =
                  some (.jnum (.negSucc m), rest)
                rw [show '-' :: (natChars (m + 1) ++ rest) =
                  intChars (.negSucc m) ++ rest from by rw [intChars]; simp]
                rw [pnumber_rt _ rest hnd]
            | ofNat m =>
                obtain ⟨c0, t0, h0⟩ : ∃ c0 t0, natChars m = c0 :: t0 := by
                  cases hne : natChars m with
                  | nil => exact absurd hne (natChars_ne_nil m)
                  | cons a b => exact ⟨a, b, rfl⟩
                have hdig : isDigitCh c0 = true :=
                  natChars_all_digits m c0 (by simp [h0])
                obtain ⟨hm, _, _, _, hn, ht, hf, hq, hbk, hbc, _, _, _, hsl,
                  hws⟩ := digit_excludes c0 hdig
                rw [show pjson ind (.jnum (.ofNat m)) ++ rest =
                  c0 :: (t0 ++ rest) from by rw [pjson, intChars, h0]; simp]
                rw [skipTrivia_nohit c0 _ hws hsl]
                have harg : c0 :: (t0 ++ rest) =
                    intChars (Int.ofNat m) ++ rest := by
                  rw [intChars, h0]
                  simp
                simp [hn, ht, hf, hq, hbk, hbc, hdig, hm]
                rw [harg, pnumber_rt (Int.ofNat m) rest hnd]
                rfl
        | jarr items =>
            cases items with
            | nil =>
                rw [show pjson ind (.jarr []) ++ rest = '[' :: (']' :: rest)
                  from by rw [pjson]; rfl]
                rw [skipTrivia_nohit '[' _ (by decide) (by decide)]
                show parr f (']' :: rest) = some (.jarr [], rest)
                exact parr_close f (']' :: rest) rest
                  (skipTrivia_nohit ']' rest (by decide) (by decide))
            | cons v vs =>
                rw [jsonKeysOk, itemsKeysOk, Bool.and_eq_true] at hkeys
                rw [show pjson ind (.jarr (v :: vs)) ++ rest =
                  '[' :: ('\n' :: (pitems (ind + 1) v vs ++ '\n' ::
                    (pad ind ++ ']' :: rest))) from by rw [pjson]; simp]
                rw [skipTrivia_nohit '[' _ (by decide) (by decide)]
                show parr f ('\n' :: (pitems (ind + 1) v vs ++ '\n' ::
                  (pad ind ++ ']' :: rest))) = some (.jarr (v :: vs), rest)
                obtain ⟨c0, t0, hc0, hws0, hsl0, hrb0, _⟩ :=
                  pjson_head v (ind + 1)
                obtain ⟨Y, hY⟩ : ∃ Y, '\n' :: (pitems (ind + 1) v vs ++ '\n' ::
                    (pad ind ++ ']' :: rest)) =
                    ('\n' :: pad (ind + 1)) ++ (pjson (ind + 1) v ++ Y) := by
                  cases vs with
                  | nil =>
                      exact ⟨'\n' :: (pad ind ++ ']' :: rest),
                        by rw [pitems]; simp⟩
                  | cons w ws =>
                      exact ⟨',' :: ('\n' :: (pitems (ind + 1) w ws ++ '\n' ::
                        (pad ind ++ ']' :: rest))), by rw [pitems]; simp⟩
                have hskip : skipTrivia ('\n' :: (pitems (ind + 1) v vs ++
                    '\n' :: (pad ind ++ ']' :: rest))) = c0 :: (t0 ++ Y) := by
                  rw [hY, skipTrivia_ws _ _ (nl_pad_ws (ind + 1)), hc0,
                    List.cons_append, skipTrivia_nohit c0 _ hws0 hsl0]
                rw [parr_go f _ (t0 ++ Y) c0 hskip hrb0]
                have hlencalc : (pjson ind (.jarr (v :: vs))).length =
                    (pitems (ind + 1) v vs).length + (pad ind).length + 4 := by
                  rw [pjson]
                  simp only [List.length_cons, List.length_append,
                    List.length_nil]
                  omega
                have h2 := (ih f (by omega)).2.1 vs v [] ind rest
                  (by omega) hkeys.1 hkeys.2
                rw [h2, List.nil_append]
        | jobj fields =>
            cases fields with
            | nil =>
                rw [show pjson ind (.jobj []) ++ rest = '{' :: ('}' :: rest)
                  from by rw [pjson]; rfl]
                rw [skipTrivia_nohit '{' _ (by decide) (by decide)]
                show pobj f ('}' :: rest) = some (.jobj [], rest)
                exact pobj_close f ('}' :: rest) rest
                  (skipTrivia_nohit '}' rest (by decide) (by decide))
            | cons p fs =>
                rcases p with ⟨k, w⟩
                rw [jsonKeysOk, fieldsKeysOk, Bool.and_eq_true,
                  Bool.and_eq_true] at hkeys
                rw [show pjson ind (.jobj ((k, w) :: fs)) ++ rest =
                  '{' :: ('\n' :: (pfields (ind + 1) k w fs ++ '\n' ::
                    (pad ind ++ '}' :: rest))) from by rw [pjson]; simp]
                rw [skipTrivia_nohit '{' _ (by decide) (by decide)]
                show pobj f ('\n' :: (pfields (ind + 1) k w fs ++ '\n' ::
                  (pad ind ++ '}' :: rest))) = some (.jobj ((k, w) :: fs), rest)
                obtain ⟨Z, hZ⟩ : ∃ Z, '\n' :: (pfields (ind + 1) k w fs ++
                    '\n' :: (pad ind ++ '}' :: rest)) =
                    ('\n' :: pad (ind + 1)) ++ ('"' :: Z) := by
                  cases fs with
                  | nil =>
                      exact ⟨escChars k.data ++ '"' :: (':' :: (' ' ::
                        (pjson (ind + 1) w ++ '\n' ::
                          (pad ind ++ '}' :: rest)))),
                        by rw [pfields, strChars]; simp⟩
                  | cons g gs =>
                      rcases g with ⟨gk, gv⟩
                      exact ⟨escChars k.data ++ '"' :: (':' :: (' ' ::
                        (pjson (ind + 1) w ++ ',' :: ('\n' ::
                          (pfields (ind + 1) gk gv gs ++ '\n' ::
                            (pad ind ++ '}' :: rest)))))),
                        by rw [pfields, strChars]; simp⟩
                have hskip : skipTrivia ('\n' :: (pfields (ind + 1) k w fs ++
                    '\n' :: (pad ind ++ '}' :: rest))) = '"' :: Z := by
                  rw [hZ, skipTrivia_ws _ _ (nl_pad_ws (ind + 1)),
                    skipTrivia_nohit '"' _ (by decide) (by decide)]
                rw [pobj_go f _ Z '"' hskip (by decide)]
                have hlencalc : (pjson ind (.jobj ((k, w) :: fs))).length =
                    (pfields (ind + 1) k w fs).length + (pad ind).length +
                      4 := by
                  rw [pjson]
                  simp only [List.length_cons, List.length_append,
                    List.length_nil]
                  omega
                have hnd0 : nodupKeys ([] ++ (k, w) :: fs) = true := by
                  rw [List.nil_append]
                  exact hkeys.1
                have h3 := (ih f (by omega)).2.2 fs k w [] ind rest
                  (by omega) hkeys.2.1 hkeys.2.2 hnd0
                rw [h3, List.nil_append]
  · -- array elements
    intro vs v acc ind rest hlen hkv hkvs
    cases fuel with
    | zero => exact absurd hlen (by omega)
    | succ f =>
        cases vs with
        | nil =>
            have hpadlen : 0 < (pad (ind + 1)).length := by
              rw [pad, List.length_replicate]
              omega
            have hitemlen : (pitems (ind + 1) v []).length =
                (pad (ind + 1)).length + (pjson (ind + 1) v).length := by
              rw [pitems, List.length_append]
            have hv : pstep f .value ('\n' :: (pitems (ind + 1) v [] ++
                '\n' :: (pad ind ++ ']' :: rest))) =
                some (v, '\n' :: (pad ind ++ ']' :: rest)) := by
              rw [show '\n' :: (pitems (ind + 1) v [] ++ '\n' ::
                  (pad ind ++ ']' :: rest)) =
                  ('\n' :: pad (ind + 1)) ++ (pjson (ind + 1) v ++
                    ('\n' :: (pad ind ++ ']' :: rest))) from by
                rw [pitems]; simp]
              rw [pstep_value_ws f _ _ (nl_pad_ws (ind + 1))]
              exact (ih f (by omega)).1 v (ind + 1) _ (by omega) hkv
                (numDelim_cons '\n' _ (by decide) (by decide) (by decide)
                  (by decide))
            rw [pstep_elems_some f acc _ _ v hv]
            have hsk : skipTrivia ('\n' :: (pad ind ++ ']' :: rest)) =
                ']' :: rest := by
              rw [show '\n' :: (pad ind ++ ']' :: rest) =
                ('\n' :: pad ind) ++ (']' :: rest) from by simp]
              rw [skipTrivia_ws _ _ (nl_pad_ws ind),
                skipTrivia_nohit ']' rest (by decide) (by decide)]
            rw [pelemsNext_close f acc v _ rest hsk]
        | cons w ws =>
            rw [itemsKeysOk, Bool.and_eq_true] at hkvs
            have hpadlen : 0 < (pad (ind + 1)).length := by
              rw [pad, List.length_replicate]
              omega
            have hitemlen : (pitems (ind + 1) v (w :: ws)).length =
                (pad (ind + 1)).length + (pjson (ind + 1) v).length + 2 +
                  (pitems (ind + 1) w ws).length := by
              rw [pitems]
              simp only [List.length_append, List.length_cons]
              omega
            have hv : pstep f .value ('\n' :: (pitems (ind + 1) v (w :: ws) ++
                '\n' :: (pad ind ++ ']' :: rest))) =
                some (v, ',' :: ('\n' :: (pitems (ind + 1) w ws ++ '\n' ::
                  (pad ind ++ ']' :: rest)))) := by
              rw [show '\n' :: (pitems (ind + 1) v (w :: ws) ++ '\n' ::
                  (pad ind ++ ']' :: rest)) =
                  ('\n' :: pad (ind + 1)) ++ (pjson (ind + 1) v ++
                    (',' :: ('\n' :: (pitems (ind + 1) w ws ++ '\n' ::
                      (pad ind ++ ']' :: rest))))) from by
                rw [pitems]; simp]
              rw [pstep_value_ws f _ _ (nl_pad_ws (ind + 1))]
              exact (ih f (by omega)).1 v (ind + 1) _ (by omega) hkv
                (numDelim_cons ',' _ (by decide) (by decide) (by decide)
                  (by decide))
            rw [pstep_elems_some f acc _ _ v hv]
            rw [pelemsNext_comma f acc v _ _
              (skipTrivia_nohit ',' _ (by decide) (by decide))]
            have h2 := (ih f (by omega)).2.1 ws w (acc ++ [v]) ind rest
              (by omega) hkvs.1 hkvs.2
            rw [h2]
            simp
  · -- object members
    intro fs k v acc ind rest hlen hkv hkfs hnd
    cases fuel with
    | zero => exact absurd hlen (by omega)
    | succ f =>
        cases fs with
        | nil =>
            have hfldlen : (pfields (ind + 1) k v []).length =
                (pad (ind + 1)).length + (strChars k).length + 2 +
                  (pjson (ind + 1) v).length := by
              rw [pfields]
              simp only [List.length_append, List.length_cons]
              omega
            have hsk : skipTrivia ('\n' :: (pfields (ind + 1) k v [] ++
                '\n' :: (pad ind ++ '}' :: rest))) =
                '"' :: (escChars k.data ++ '"' :: (':' :: (' ' ::
                  (pjson (ind + 1) v ++ '\n' ::
                    (pad ind ++ '}' :: rest))))) := by
              rw [show '\n' :: (pfields (ind + 1) k v [] ++ '\n' ::
                  (pad ind ++ '}' :: rest)) =
                  ('\n' :: pad (ind + 1)) ++ ('"' :: (escChars k.data ++
                    '"' :: (':' :: (' ' :: (pjson (ind + 1) v ++ '\n' ::
                      (pad ind ++ '}' :: rest)))))) from by
                rw [pfields, strChars]; simp]
              rw [skipTrivia_ws _ _ (nl_pad_ws (ind + 1)),
                skipTrivia_nohit '"' _ (by decide) (by decide)]
            rw [pstep_members_quote f acc _ _ hsk]
            rw [pmembersKey_eq f acc _ k _ (pstring_rt k _)]
            rw [pmembersColon_eq f acc k _ _
              (skipTrivia_nohit ':' _ (by decide) (by decide))]
            have hv : pstep f .value (' ' :: (pjson (ind + 1) v ++ '\n' ::
                (pad ind ++ '}' :: rest))) =
                some (v, '\n' :: (pad ind ++ '}' :: rest)) := by
              rw [show ' ' :: (pjson (ind + 1) v ++ '\n' ::
                  (pad ind ++ '}' :: rest)) =
                  [' '] ++ (pjson (ind + 1) v ++ '\n' ::
                    (pad ind ++ '}' :: rest)) from rfl]
              rw [pstep_value_ws f _ _ (by decide)]
              exact (ih f (by omega)).1 v (ind + 1) _ (by omega) hkv
                (numDelim_cons '\n' _ (by decide) (by decide) (by decide)
                  (by decide))
            rw [pmembersVal_eq f acc k _ v _ hv]
            have hsk2 : skipTrivia ('\n' :: (pad ind ++ '}' :: rest)) =
                '}' :: rest := by
              rw [show '\n' :: (pad ind ++ '}' :: rest) =
                ('\n' :: pad ind) ++ ('}' :: rest) from by simp]
              rw [skipTrivia_ws _ _ (nl_pad_ws ind),
                skipTrivia_nohit '}' rest (by decide) (by decide)]
            rw [pmembersNext_close f acc k v _ rest hsk2]
            rw [objInsert_fresh acc k v (nodup_split k v acc [] hnd)]
        | cons g gs =>
            rcases g with ⟨gk, gv⟩
            rw [fieldsKeysOk, Bool.and_eq_true] at hkfs
            have hfldlen : (pfields (ind + 1) k v ((gk, gv) :: gs)).length =
                (pad (ind + 1)).length + (strChars k).length + 2 +
                  (pjson (ind + 1) v).length + 2 +
                  (pfields (ind + 1) gk gv gs).length := by
              rw [pfields]
              simp only [List.length_append, List.length_cons]
              omega
            have hsk : skipTrivia ('\n' ::
                (pfields (ind + 1) k v ((gk, gv) :: gs) ++
                '\n' :: (pad ind ++ '}' :: rest))) =
                '"' :: (escChars k.data ++ '"' :: (':' :: (' ' ::
                  (pjson (ind + 1) v ++ ',' :: ('\n' ::
                    (pfields (ind + 1) gk gv gs ++ '\n' ::
                      (pad ind ++ '}' :: rest))))))) := by
              rw [show '\n' :: (pfields (ind + 1) k v ((gk, gv) :: gs) ++
                  '\n' :: (pad ind ++ '}' :: rest)) =
                  ('\n' :: pad (ind + 1)) ++ ('"' :: (escChars k.data ++
                    '"' :: (':' :: (' ' :: (pjson (ind + 1) v ++ ',' ::
                      ('\n' :: (pfields (ind + 1) gk gv gs ++ '\n' ::
                        (pad ind ++ '}' :: rest)))))))) from by
                rw [pfields, strChars]; simp]
              rw [skipTrivia_ws _ _ (nl_pad_ws (ind + 1)),
                skipTrivia_nohit '"' _ (by decide) (by decide)]
            rw [pstep_members_quote f acc _ _ hsk]
            rw [pmembersKey_eq f acc _ k _ (pstring_rt k _)]
            rw [pmembersColon_eq f acc k _ _
              (skipTrivia_nohit ':' _ (by decide) (by decide))]
            have hv : pstep f .value (' ' :: (pjson (ind + 1) v ++ ',' ::
                ('\n' :: (pfields (ind + 1) gk gv gs ++ '\n' ::
                  (pad ind ++ '}' :: rest))))) =
                some (v, ',' :: ('\n' :: (pfields (ind + 1) gk gv gs ++
                  '\n' :: (pad ind ++ '}' :: rest)))) := by
              rw [show ' ' :: (pjson (ind + 1) v ++ ',' ::
                  ('\n' :: (pfields (ind + 1) gk gv gs ++ '\n' ::
                    (pad ind ++ '}' :: rest)))) =
                  [' '] ++ (pjson (ind + 1) v ++ ',' ::
                    ('\n' :: (pfields (ind + 1) gk gv gs ++ '\n' ::
                      (pad ind ++ '}' :: rest)))) from rfl]
              rw [pstep_value_ws f _ _ (by decide)]
              exact (ih f (by omega)).1 v (ind + 1) _ (by omega) hkv
                (numDelim_cons ',' _ (by decide) (by decide) (by decide)
                  (by decide))
            rw [pmembersVal_eq f acc k _ v _ hv]
            rw [pmembersNext_comma f acc k v _ _
              (skipTrivia_nohit ',' _ (by decide) (by decide))]
            rw [objInsert_fresh acc k v
              (nodup_split k v acc ((gk, gv) :: gs) hnd)]
            have hnd2 : nodupKeys ((acc ++ [(k, v)]) ++ (gk, gv) :: gs) =
                true := by
              rw [List.append_assoc]
              exact hnd
            have h3 := (ih f (by omega)).2.2 gs gk gv (acc ++ [(k, v)]) ind
              rest (by omega) hkfs.1 hkfs.2 hnd2
            rw [h3]
            simp

theorem lookup_optFields_nil (k : String) :
    (optFields []).lookup k = none := rfl

theorem lookup_optFields_cons_ne (k k0 : String) (ov : Option Json)
    (t : List (String × Option Json)) (h : (k == k0) = false) :
    (optFields ((k0, ov) :: t)).lookup k = (optFields t).lookup k := by
  cases ov with
  | none => rfl
  | some j => exact lookup_cons_miss k (k0, j) (optFields t) h

theorem lookup_optFields_hit (k0 : String) (ov : Option Json)
    (t : List (String × Option Json))
    (hnone : (optFields t).lookup k0 = none) :
    (optFields ((k0, ov) :: t)).lookup k0 = ov := by
  cases ov with
  | none => exact hnone
  | some j => exact lookup_cons_hit k0 (k0, j) (optFields t) (by simp)

theorem optFields_lookup_none (t : List (String × Option Json)) (k : String)
    (h : t.lookup k = none) : (optFields t).lookup k = none := by
  induction t with
  | nil => rfl
  | cons p t ih =>
      rcases p with ⟨pk, pv⟩
      by_cases hk : (k == pk) = true
      · rw [lookup_cons_hit k (pk, pv) t hk] at h
        simp at h
      · have hk' : (k == pk) = false := by simpa using hk
        rw [lookup_cons_miss k (pk, pv) t hk'] at h
        rw [lookup_optFields_cons_ne k pk pv t hk']
        exact ih h

theorem nodupKeys_optFields (t : List (String × Option Json))
    (h : nodupKeys t = true) : nodupKeys (optFields t) = true := by
  induction t with
  | nil => rfl
  | cons p t ih =>
      rcases p with ⟨pk, ov⟩
      rw [nodupKeys] at h
      simp only [Bool.and_eq_true, Option.isNone_iff_eq_none] at h
      cases ov with
      | none => exact ih h.2
      | some j =>
          show nodupKeys ((pk, j) :: optFields t) = true
          rw [nodupKeys]
          simp only [Bool.and_eq_true, Option.isNone_iff_eq_none]
          exact ⟨optFields_lookup_none t pk h.1, ih h.2⟩

/-! ### Key-distinctness of the produced JSON -/
theorem optmap_keysOk (g : β → Json) (o : Option β)
    (hg : ∀ b, jsonKeysOk (g b) = true) :
    ∀ j, o.map g = some j → jsonKeysOk j = true := by
  intro j hj
  cases o with
  | none => exact absurd hj (by simp)
  | some b =>
      simp only [Option.map_some', Option.some.injEq] at hj
      subst hj
      exact hg b

theorem someconst_keysOk (j0 : Json) (h0 : jsonKeysOk j0 = true) :
    ∀ j, some j0 = some j → jsonKeysOk j = true := by
  intro j hj
  cases hj
  exact h0

theorem fieldsKeysOk_optFields (L : List (String × Option Json))
    (h : ∀ p ∈ L, ∀ j, p.2 = some j → jsonKeysOk j = true) :
    fieldsKeysOk (optFields L) = true := by
  induction L with
  | nil =>
      show fieldsKeysOk [] = true
      rw [fieldsKeysOk]
  | cons p t ih =>
      rcases p with ⟨pk, ov⟩
      cases ov with
      | none =>
          show fieldsKeysOk (optFields t) = true
          exact ih (fun q hq => h q (by simp [hq]))
      | some j =>
          show fieldsKeysOk ((pk, j) :: optFields t) = true
          rw [fieldsKeysOk, Bool.and_eq_true]
          exact ⟨h (pk, some j) (by simp) j rfl,
            ih (fun q hq => h q (by simp [hq]))⟩

theorem itemsKeysOk_map_jstr (xs : List String) :
    itemsKeysOk (xs.map .jstr) = true := by
  induction xs with
  | nil =>
      rw [List.map_nil, itemsKeysOk]
  | cons x t ih =>
      rw [List.map_cons, itemsKeysOk, jsonKeysOk, ih]
      rfl

theorem jsonKeysOk_strListJson (xs : List String) :
    jsonKeysOk (strListJson xs) = true := by
  rw [strListJson, jsonKeysOk]
  exact itemsKeysOk_map_jstr xs

theorem tapEntryJson_keysOk (e : TapEntry) :
    jsonKeysOk (tapEntryJson e) = true := by
  rw [tapEntryJson, jsonKeysOk, Bool.and_eq_true]
  refine ⟨nodupKeys_optFields _ rfl, fieldsKeysOk_optFields _ ?_⟩
  intro p hp j hj
  simp only [List.mem_cons, List.not_mem_nil, or_false] at hp
  rcases hp with rfl | rfl | rfl
  · exact optmap_keysOk Json.jstr e.url (fun s => by rw [jsonKeysOk]) j hj
  · exact optmap_keysOk Json.jstr e.commit (fun s => by rw [jsonKeysOk]) j hj
  · exact optmap_keysOk Json.jbool e.official (fun b => by rw [jsonKeysOk])
      j hj

theorem brewEntryJson_keysOk (e : BrewEntry) :
    jsonKeysOk (brewEntryJson e) = true := by
  rw [brewEntryJson, jsonKeysOk, Bool.and_eq_true]
  refine ⟨nodupKeys_optFields _ rfl, fieldsKeysOk_optFields _ ?_⟩
  intro p hp j hj
  simp only [List.mem_cons, List.not_mem_nil, or_false] at hp
  rcases hp with rfl | rfl | rfl | rfl | rfl | rfl | rfl | rfl | rfl
  · exact someconst_keysOk _ (by rw [jsonKeysOk]) j hj
  · exact optmap_keysOk strListJson e.installed jsonKeysOk_strListJson j hj
  · exact optmap_keysOk Json.jnum e.revision (fun n => by rw [jsonKeysOk]) j hj
  · exact optmap_keysOk Json.jstr e.tap (fun s => by rw [jsonKeysOk]) j hj
  · exact optmap_keysOk Json.jbool e.pinned (fun b => by rw [jsonKeysOk]) j hj
  · exact optmap_keysOk strListJson e.dependencies jsonKeysOk_strListJson j hj
  · exact optmap_keysOk Json.jstr e.sha256 (fun s => by rw [jsonKeysOk]) j hj
  · exact optmap_keysOk Json.jbool e.installed_as_dependency
      (fun b => by rw [jsonKeysOk]) j hj
  · exact optmap_keysOk Json.jbool e.installed_on_request
      (fun b => by rw [jsonKeysOk]) j hj

theorem caskEntryJson_keysOk (e : CaskEntry) :
    jsonKeysOk (caskEntryJson e) = true := by
  rw [caskEntryJson, jsonKeysOk, Bool.and_eq_true]
  refine ⟨nodupKeys_optFields _ rfl, fieldsKeysOk_optFields _ ?_⟩
  intro p hp j hj
  simp only [List.mem_cons, List.not_mem_nil, or_false] at hp
  rcases hp with rfl | rfl | rfl | rfl
  · exact someconst_keysOk _ (by rw [jsonKeysOk]) j hj
  · exact optmap_keysOk Json.jstr e.tap (fun s => by rw [jsonKeysOk]) j hj
  · exact optmap_keysOk Json.jstr e.sha256 (fun s => by rw [jsonKeysOk]) j hj
  · exact optmap_keysOk Json.jbool e.auto_updates
      (fun b => by rw [jsonKeysOk]) j hj

theorem masEntryJson_keysOk (e : MasEntry) :
    jsonKeysOk (masEntryJson e) = true := by
  rw [masEntryJson, jsonKeysOk, Bool.and_eq_true]
  refine ⟨rfl, ?_⟩
  rw [fieldsKeysOk, jsonKeysOk]
  rw [fieldsKeysOk, jsonKeysOk]
  rw [fieldsKeysOk]
  rfl

theorem lookup_map_value (f : α → β) (l : List (String × α)) (k : String) :
    (l.map (fun p => (p.1, f p.2))).lookup k = (l.lookup k).map f := by
  induction l with
  | nil => rfl
  | cons p t ih =>
      rcases p with ⟨pk, pv⟩
      by_cases hk : (k == pk) = true
      · rw [List.map_cons]
        rw [lookup_cons_hit k (pk, f pv) _ hk, lookup_cons_hit k (pk, pv) t hk]
        rfl
      · have hk' : (k == pk) = false := by simpa using hk
        rw [List.map_cons]
        rw [lookup_cons_miss k (pk, f pv) _ hk',
          lookup_cons_miss k (pk, pv) t hk']
        exact ih

theorem nodupKeys_map_value (f : α → β) (l : List (String × α))
    (h : nodupKeys l = true) :
    nodupKeys (l.map (fun p => (p.1, f p.2))) = true := by
  induction l with
  | nil => rfl
  | cons p t ih =>
      rcases p with ⟨pk, pv⟩
      rw [nodupKeys] at h
      simp only [Bool.and_eq_true, Option.isNone_iff_eq_none] at h
      rw [List.map_cons, nodupKeys]
      simp only [Bool.and_eq_true, Option.isNone_iff_eq_none]
      refine ⟨?_, ih h.2⟩
      rw [lookup_map_value f t pk, h.1]
      rfl

theorem fieldsKeysOk_map (ej : α → Json)
    (hej : ∀ e, jsonKeysOk (ej e) = true) (l : List (String × α)) :
    fieldsKeysOk (l.map (fun p => (p.1, ej p.2))) = true := by
  induction l with
  | nil =>
      rw [List.map_nil, fieldsKeysOk]
  | cons p t ih =>
      rcases p with ⟨pk, pv⟩
      rw [List.map_cons, fieldsKeysOk, hej pv, ih]
      rfl

theorem sectionJson_keysOk (ej : α → Json)
    (hej : ∀ e, jsonKeysOk (ej e) = true) (l : List (String × α))
    (h : nodupKeys l = true) : jsonKeysOk (sectionJson ej l) = true := by
  rw [sectionJson, jsonKeysOk, Bool.and_eq_true]
  exact ⟨nodupKeys_map_value _ l h, fieldsKeysOk_map ej hej l⟩

theorem docToJson_keysOk (d : LockFile) (h : lockFileWF d = true) :
    jsonKeysOk (docToJson d) = true := by
  rw [lockFileWF] at h
  simp only [Bool.and_eq_true] at h
  rw [docToJson, jsonKeysOk, Bool.and_eq_true]
  refine ⟨rfl, ?_⟩
  rw [fieldsKeysOk, jsonKeysOk]
  rw [fieldsKeysOk, sectionJson_keysOk tapEntryJson tapEntryJson_keysOk _
    h.1.1.1]
  rw [fieldsKeysOk, sectionJson_keysOk brewEntryJson brewEntryJson_keysOk _
    h.1.1.2]
  rw [fieldsKeysOk, sectionJson_keysOk caskEntryJson caskEntryJson_keysOk _
    h.1.2]
  rw [fieldsKeysOk, sectionJson_keysOk masEntryJson masEntryJson_keysOk _
    h.2]
  rw [fieldsKeysOk]
  rfl

/-! ### Schema validation inverts the JSON production -/
theorem omap_asStr_map (xs : List String) :
    omap asStr (xs.map Json.jstr) = some xs := by
  induction xs with
  | nil => rfl
  | cons x t ih => simp [omap, asStr, ih]

theorem asStrList_strListJson (xs : List String) :
    asStrList (strListJson xs) = some xs := by
  rw [strListJson]
  show omap asStr (xs.map Json.jstr) = some xs
  exact omap_asStr_map xs

theorem optOf_map (f : Json → Option β) (g : β → Json) (o : Option β)
    (hfg : ∀ b, f (g b) = some b) : optOf f (o.map g) = some o := by
  cases o with
  | none => rfl
  | some b =>
      show (f (g b)).map some = some (some b)
      rw [hfg b]
      rfl

theorem optOf_asStr_jstr (o : Option String) :
    optOf asStr (o.map Json.jstr) = some o :=
  optOf_map _ _ _ (fun _ => rfl)

theorem optOf_asBool_jbool (o : Option Bool) :
    optOf asBool (o.map Json.jbool) = some o :=
  optOf_map _ _ _ (fun _ => rfl)

theorem optOf_asInt_jnum (o : Option Int) :
    optOf asInt (o.map Json.jnum) = some o :=
  optOf_map _ _ _ (fun _ => rfl)

theorem optOf_asStrList_strListJson (o : Option (List String)) :
    optOf asStrList (o.map strListJson) = some o :=
  optOf_map _ _ _ asStrList_strListJson

theorem tapEntryJson_rt (e : TapEntry) :
    tapEntryOfJson (tapEntryJson e) = some e := by
  rcases e with ⟨url, commit, official⟩
  rw [tapEntryJson, tapEntryOfJson]
  simp +decide only [lookup_optFields_cons_ne, lookup_optFields_hit,
    lookup_optFields_nil, optOf_asStr_jstr, optOf_asBool_jbool]
  rfl

theorem brewEntryJson_rt (e : BrewEntry) :
    brewEntryOfJson (brewEntryJson e) = some e := by
  rcases e with ⟨v, inst, rev, tap, pin, deps, sha, iad, ior⟩
  rw [brewEntryJson, brewEntryOfJson]
  simp +decide only [lookup_optFields_cons_ne, lookup_optFields_hit,
    lookup_optFields_nil, optOf_asStr_jstr, optOf_asBool_jbool,
    optOf_asInt_jnum, optOf_asStrList_strListJson]
  rfl

theorem caskEntryJson_rt (e : CaskEntry) :
    caskEntryOfJson (caskEntryJson e) = some e := by
  rcases e with ⟨v, tap, sha, au⟩
  rw [caskEntryJson, caskEntryOfJson]
  simp +decide only [lookup_optFields_cons_ne, lookup_optFields_hit,
    lookup_optFields_nil, optOf_asStr_jstr, optOf_asBool_jbool]
  rfl

theorem masEntryJson_rt (e : MasEntry) :
    masEntryOfJson (masEntryJson e) = some e := by
  rcases e with ⟨id, v⟩
  rfl

theorem sectionOfJson_rt (eo : Json → Option α) (ej : α → Json)
    (hrt : ∀ e, eo (ej e) = some e) (l : List (String × α)) :
    sectionOfJson eo (sectionJson ej l) = some l := by
  rw [sectionJson]
  show omap (fun p => (eo p.2).map (fun e => (p.1, e)))
    (l.map (fun p => (p.1, ej p.2))) = some l
  induction l with
  | nil => rfl
  | cons p t ih =>
      rcases p with ⟨pk, pv⟩
      simp [omap, hrt pv, ih]

theorem sectionRt (eo : Json → Option α) (ej : α → Json)
    (hrt : ∀ e, eo (ej e) = some e) (l : List (String × α)) :
    sectionOfJson eo (jsDefaultObj (some (sectionJson ej l))) = some l := by
  rw [show jsDefaultObj (some (sectionJson ej l)) = sectionJson ej l from by
    rw [sectionJson]; rfl]
  exact sectionOfJson_rt eo ej hrt l

theorem docToJson_rt (d : LockFile) : docOfJson (docToJson d) = some d := by
  rcases d with ⟨ver, tap, brew, cask, mas⟩
  rw [docToJson, docOfJson]
  simp +decide only [lookup_cons_hit, lookup_cons_miss]
  simp only [sectionRt _ _ tapEntryJson_rt, sectionRt _ _ brewEntryJson_rt,
    sectionRt _ _ caskEntryJson_rt, sectionRt _ _ masEntryJson_rt]
  rfl

/-! ### Parsing the serialized document -/
theorem jsoncParse_print (j : Json) (hk : jsonKeysOk j = true) :
    jsoncParse (pjson 0 j ++ ['\n']) = some j := by
  have h := (parse_print ((pjson 0 j ++ ['\n']).length + 1)).1 j 0 ['\n']
    (by simp only [List.length_append, List.length_cons, List.length_nil]
        omega)
    hk (numDelim_cons '\n' [] (by decide) (by decide) (by decide) (by decide))
  rw [jsoncParse, h]
  rfl

theorem serializeLockFile_not_blank (d : LockFile) :
    jsBlank (serializeLockFile d) = false := by
  obtain ⟨c0, t0, hc0, hws0, _, _, _⟩ := pjson_head (docToJson d) 0
  rw [serializeLockFile, jsBlank]
  show (pjson 0 (docToJson d) ++ ['\n']).all wsChar = false
  rw [hc0, List.cons_append, List.all_cons, hws0, Bool.false_and]

theorem parse_serialize_WF (d : LockFile) (h : lockFileWF d = true) :
    parseLockFile (serializeLockFile d) = d := by
  have hparse : jsoncParse (serializeLockFile d).data = some (docToJson d) := by
    show jsoncParse (pjson 0 (docToJson d) ++ ['\n']) = some (docToJson d)
    exact jsoncParse_print _ (docToJson_keysOk d h)
  rw [parseLockFile, if_neg (by rw [serializeLockFile_not_blank d]; simp)]
  rw [hparse]
  show (match docOfJson (docToJson d) with
        | none => createEmptyLockFile
        | some doc => doc) = d
  rw [docToJson_rt d]

/-- C3: `parseLockFile` never propagates an error: on malformed input —
blank content, a JSONC syntax error, or a document that fails the schema
validation (wrong shapes or types) — it returns the empty, valid lock
document: format version 1 and all four kind mappings empty,
well-formed. -/
theorem parse_fallback (content : String)
    (h : jsBlank content = true ∨ jsoncParse content.data = none ∨
      ∃ j, jsoncParse content.data = some j ∧ docOfJson j = none) :
    parseLockFile content = createEmptyLockFile ∧
      lockFileWF (parseLockFile content) = true := by
  have hmain : parseLockFile content = createEmptyLockFile := by
    rcases h with hb | hn | ⟨j, hj, hd⟩
    · rw [parseLockFile, if_pos hb]
    · by_cases hb : jsBlank content = true
      · rw [parseLockFile, if_pos hb]
      · rw [parseLockFile, if_neg hb, hn]
    · by_cases hb : jsBlank content = true
      · rw [parseLockFile, if_pos hb]
      · rw [parseLockFile, if_neg hb, hj]
        show (match docOfJson j with
              | none => createEmptyLockFile
              | some doc => doc) = createEmptyLockFile
        rw [hd]
  exact ⟨hmain, by rw [hmain]; rfl⟩

theorem sectionRt_cond (b : Bool) (eo : Json → Option α) (ej : α → Json)
    (hrt : ∀ e, eo (ej e) = some e) (l : List (String × α)) :
    sectionOfJson eo (jsDefaultObj (cond b (some (sectionJson ej l)) none)) =
      some (cond b l []) := by
  cases b with
  | true => exact sectionRt eo ej hrt l
  | false => rfl

theorem condsome_keysOk (b : Bool) (j0 : Json) (h0 : jsonKeysOk j0 = true) :
    ∀ j, cond b (some j0) none = some j → jsonKeysOk j = true := by
  intro j hj
  cases b with
  | true =>
      rw [Bool.cond_true] at hj
      cases hj
      exact h0
  | false => exact absurd hj (by simp)

theorem partialDocJson_keysOk (pt pb pc pm : Bool) (d : LockFile)
    (h : lockFileWF d = true) :
    jsonKeysOk (partialDocJson pt pb pc pm d) = true := by
  rw [lockFileWF] at h
  simp only [Bool.and_eq_true] at h
  rw [partialDocJson, jsonKeysOk, Bool.and_eq_true]
  refine ⟨nodupKeys_optFields _ rfl, fieldsKeysOk_optFields _ ?_⟩
  intro p hp j hj
  simp only [List.mem_cons, List.not_mem_nil, or_false] at hp
  rcases hp with rfl | rfl | rfl | rfl | rfl
  · exact someconst_keysOk _ (by rw [jsonKeysOk]) j hj
  · exact condsome_keysOk pt _
      (sectionJson_keysOk tapEntryJson tapEntryJson_keysOk _ h.1.1.1) j hj
  · exact condsome_keysOk pb _
      (sectionJson_keysOk brewEntryJson brewEntryJson_keysOk _ h.1.1.2) j hj
  · exact condsome_keysOk pc _
      (sectionJson_keysOk caskEntryJson caskEntryJson_keysOk _ h.1.2) j hj
  · exact condsome_keysOk pm _
      (sectionJson_keysOk masEntryJson masEntryJson_keysOk _ h.2) j hj

theorem partialDoc_valid (pt pb pc pm : Bool) (d : LockFile) :
    docOfJson (partialDocJson pt pb pc pm d) =
      some (maskSections pt pb pc pm d) := by
  rcases d with ⟨ver, tap, brew, cask, mas⟩
  rw [partialDocJson, docOfJson]
  simp +decide only [lookup_optFields_cons_ne, lookup_optFields_hit,
    lookup_optFields_nil]
  simp only [sectionRt_cond _ _ _ tapEntryJson_rt,
    sectionRt_cond _ _ _ brewEntryJson_rt,
    sectionRt_cond _ _ _ caskEntryJson_rt,
    sectionRt_cond _ _ _ masEntryJson_rt]
  rfl

theorem pstep_value_trivia (f : Nat) (cs1 cs2 : List Char)
    (h : skipTrivia cs1 = skipTrivia cs2) :
    pstep f .value cs1 = pstep f .value cs2 := by
  cases f with
  | zero => rfl
  | succ f' =>
      simp only [pstep]
      rw [h]

theorem jsoncParse_comment_print (cmt : List Char)
    (hcmt : ∀ x ∈ cmt, (x == '\n') = false) (j : Json)
    (hk : jsonKeysOk j = true) :
    jsoncParse ('/' :: '/' :: (cmt ++ '\n' :: (pjson 0 j ++ ['\n']))) =
      some j := by
  have htr : skipTrivia ('/' :: '/' :: (cmt ++ '\n' ::
      (pjson 0 j ++ ['\n']))) = skipTrivia (pjson 0 j ++ ['\n']) :=
    skipTrivia_lineComment cmt _ hcmt
  have hp : pstep (('/' :: '/' :: (cmt ++ '\n' ::
      (pjson 0 j ++ ['\n']))).length + 1) .value
      ('/' :: '/' :: (cmt ++ '\n' :: (pjson 0 j ++ ['\n']))) =
      some (j, ['\n']) := by
    rw [pstep_value_trivia _ _ _ htr]
    exact (parse_print _).1 j 0 ['\n']
      (by simp only [List.length_append, List.length_cons, List.length_nil]
          omega)
      hk (numDelim_cons '\n' [] (by decide) (by decide) (by decide)
        (by decide))
  rw [jsoncParse, hp]
  rfl

/-- C7: a lock-file text that carries only a flag-selected subset of the
four kind sections (the others absent from the text entirely) and an
embedded line comment parses successfully: the comment does not affect the
result, the present sections are parsed normally, and every missing
section defaults to the empty mapping. -/
theorem partial_parse (pt pb pc pm : Bool) (d : LockFile)
    (h : lockFileWF d = true) (cmt : List Char)
    (hcmt : ∀ x ∈ cmt, (x == '\n') = false) :
    parseLockFile (String.mk ('/' :: '/' :: (cmt ++ '\n' ::
      (pjson 0 (partialDocJson pt pb pc pm d) ++ ['\n'])))) =
      maskSections pt pb pc pm d := by
  have hb : jsBlank (String.mk ('/' :: '/' :: (cmt ++ '\n' ::
      (pjson 0 (partialDocJson pt pb pc pm d) ++ ['\n'])))) = false := by
    rw [jsBlank]
    show ('/' :: '/' :: (cmt ++ '\n' ::
      (pjson 0 (partialDocJson pt pb pc pm d) ++ ['\n']))).all wsChar = false
    rw [List.all_cons, show wsChar '/' = false from rfl, Bool.false_and]
  have hj := jsoncParse_comment_print cmt hcmt (partialDocJson pt pb pc pm d)
    (partialDocJson_keysOk pt pb pc pm d h)
  rw [parseLockFile, if_neg (by rw [hb]; simp)]
  rw [show (String.mk ('/' :: '/' :: (cmt ++ '\n' ::
    (pjson 0 (partialDocJson pt pb pc pm d) ++ ['\n'])))).data =
    '/' :: '/' :: (cmt ++ '\n' ::
      (pjson 0 (partialDocJson pt pb pc pm d) ++ ['\n'])) from rfl]
  rw [hj]
  show (match docOfJson (partialDocJson pt pb pc pm d) with
        | none => createEmptyLockFile
        | some doc => doc) = maskSections pt pb pc pm d
  rw [partialDoc_valid pt pb pc pm d]

/-! ### The JS object operations preserve key distinctness -/

theorem lookup_map_replace_none (l : List (String × α)) (k : String) (v : α)
    (h : l.lookup k = none) :
    (l.map (fun p => if p.1 == k then (k, v) else p)).lookup k = none := by
  induction l with
  | nil => rfl
  | cons p t ih =>
      rcases p with ⟨qk, qv⟩
      by_cases hq : (k == qk) = true
      · rw [lookup_cons_hit k (qk, qv) t hq] at h
        simp at h
      · have hq' : (k == qk) = false := by simpa using hq
        have hqk : (qk == k) = false := by
          have hne : qk ≠ k := by
            intro he
            subst he
            simp at hq'
          exact beq_false_of_ne hne
        have hif : (if ((qk, qv).1 == k) = true then (k, v) else (qk, qv)) =
            (qk, qv) := by simp [hqk]
        rw [lookup_cons_miss k (qk, qv) t hq'] at h
        rw [List.map_cons, hif, lookup_cons_miss k (qk, qv) _ hq']
        exact ih h

theorem nodupKeys_map_replace (l : List (String × α)) (k : String) (v : α)
    (h : nodupKeys l = true) :
    nodupKeys (l.map (fun p => if p.1 == k then (k, v) else p)) = true := by
  induction l with
  | nil => rfl
  | cons p t ih =>
      rcases p with ⟨pk, pv⟩
      rw [nodupKeys] at h
      simp only [Bool.and_eq_true, Option.isNone_iff_eq_none] at h
      by_cases hpk : (pk == k) = true
      · have hke : pk = k := by simpa using hpk
        subst hke
        have hif : (if ((pk, pv).1 == pk) = true then (pk, v) else (pk, pv)) =
            (pk, v) := by simp
        rw [List.map_cons, hif, nodupKeys]
        simp only [Bool.and_eq_true, Option.isNone_iff_eq_none]
        exact ⟨lookup_map_replace_none t pk v h.1, ih h.2⟩
      · have hb : (pk == k) = false := by simpa using hpk
        have hif : (if ((pk, pv).1 == k) = true then (k, v) else (pk, pv)) =
            (pk, pv) := by simp [hb]
        rw [List.map_cons, hif, nodupKeys]
        simp only [Bool.and_eq_true, Option.isNone_iff_eq_none]
        have hne : pk ≠ k := by
          intro he
          subst he
          simp at hb
        refine ⟨?_, ih h.2⟩
        rw [lookup_map_replace_ne t k pk v hne, h.1]

theorem nodupKeys_append_single (l : List (String × α)) (k : String) (v : α)
    (h : nodupKeys l = true) (hl : l.lookup k = none) :
    nodupKeys (l ++ [(k, v)]) = true := by
  induction l with
  | nil => rfl
  | cons p t ih =>
      rcases p with ⟨pk, pv⟩
      rw [nodupKeys] at h
      simp only [Bool.and_eq_true, Option.isNone_iff_eq_none] at h
      by_cases hq : (k == pk) = true
      · rw [lookup_cons_hit k (pk, pv) t hq] at hl
        simp at hl
      · have hq' : (k == pk) = false := by simpa using hq
        rw [lookup_cons_miss k (pk, pv) t hq'] at hl
        rw [List.cons_append, nodupKeys]
        simp only [Bool.and_eq_true, Option.isNone_iff_eq_none]
        have hne : pk ≠ k := by
          intro he
          subst he
          simp at hq'
        refine ⟨?_, ih h.2 hl⟩
        rw [lookup_append_last_ne t k pk v hne, h.1]

theorem nodupKeys_objInsert (l : List (String × α)) (k : String) (v : α)
    (h : nodupKeys l = true) : nodupKeys (objInsert l k v) = true := by
  rw [objInsert]
  by_cases hs : (l.lookup k).isSome = true
  · rw [if_pos hs]
    exact nodupKeys_map_replace l k v h
  · have hn : l.lookup k = none := by
      cases hx : l.lookup k with
      | none => rfl
      | some _ => rw [hx] at hs; simp at hs
    rw [if_neg hs]
    exact nodupKeys_append_single l k v h hn

theorem nodupKeys_objRemove (l : List (String × α)) (k : String)
    (h : nodupKeys l = true) : nodupKeys (objRemove l k) = true := by
  induction l with
  | nil => rfl
  | cons p t ih =>
      rcases p with ⟨pk, pv⟩
      rw [nodupKeys] at h
      simp only [Bool.and_eq_true, Option.isNone_iff_eq_none] at h
      by_cases hpk : (pk == k) = true
      · rw [show objRemove ((pk, pv) :: t) k = objRemove t k from by
          simp [objRemove, List.filter_cons, hpk]]
        exact ih h.2
      · have hpk' : (pk == k) = false := by simpa using hpk
        rw [show objRemove ((pk, pv) :: t) k = (pk, pv) :: objRemove t k
          from by simp [objRemove, List.filter_cons, hpk']]
        rw [nodupKeys]
        simp only [Bool.and_eq_true, Option.isNone_iff_eq_none]
        have hne : pk ≠ k := by
          intro he
          subst he
          simp at hpk'
        refine ⟨?_, ih h.2⟩
        rw [lookup_objRemove_ne t k pk hne, h.1]

theorem lockFileWF_upsert (d : LockFile) (k : PackageType) (name : String)
    (e : KindEntry k) (h : lockFileWF d = true) :
    lockFileWF (upsertEntry d k name e) = true := by
  rw [lockFileWF] at h
  simp only [Bool.and_eq_true] at h
  cases k with
  | tap =>
      rw [upsertEntry, upsertTap, lockFileWF]
      simp only [Bool.and_eq_true]
      exact ⟨⟨⟨nodupKeys_objInsert _ _ _ h.1.1.1, h.1.1.2⟩, h.1.2⟩, h.2⟩
  | brew =>
      rw [upsertEntry, upsertBrew, lockFileWF]
      simp only [Bool.and_eq_true]
      exact ⟨⟨⟨h.1.1.1, nodupKeys_objInsert _ _ _ h.1.1.2⟩, h.1.2⟩, h.2⟩
  | cask =>
      rw [upsertEntry, upsertCask, lockFileWF]
      simp only [Bool.and_eq_true]
      exact ⟨⟨⟨h.1.1.1, h.1.1.2⟩, nodupKeys_objInsert _ _ _ h.1.2⟩, h.2⟩
  | mas =>
      rw [upsertEntry, upsertMas, lockFileWF]
      simp only [Bool.and_eq_true]
      exact ⟨⟨⟨h.1.1.1, h.1.1.2⟩, h.1.2⟩, nodupKeys_objInsert _ _ _ h.2⟩

theorem lockFileWF_remove (d : LockFile) (k : PackageType) (name : String)
    (h : lockFileWF d = true) :
    lockFileWF (removeEntry d k name) = true := by
  rw [lockFileWF] at h
  simp only [Bool.and_eq_true] at h
  cases k with
  | tap =>
      rw [removeEntry, removeTap, lockFileWF]
      simp only [Bool.and_eq_true]
      exact ⟨⟨⟨nodupKeys_objRemove _ _ h.1.1.1, h.1.1.2⟩, h.1.2⟩, h.2⟩
  | brew =>
      rw [removeEntry, removeBrew, lockFileWF]
      simp only [Bool.and_eq_true]
      exact ⟨⟨⟨h.1.1.1, nodupKeys_objRemove _ _ h.1.1.2⟩, h.1.2⟩, h.2⟩
  | cask =>
      rw [removeEntry, removeCask, lockFileWF]
      simp only [Bool.and_eq_true]
      exact ⟨⟨⟨h.1.1.1, h.1.1.2⟩, nodupKeys_objRemove _ _ h.1.2⟩, h.2⟩
  | mas =>
      rw [removeEntry, removeMas, lockFileWF]
      simp only [Bool.and_eq_true]
      exact ⟨⟨⟨h.1.1.1, h.1.1.2⟩, h.1.2⟩, nodupKeys_objRemove _ _ h.2⟩

theorem nodupKeys_foldl_objInsert (key : β → String) (val : β → α)
    (xs : List β) :
    ∀ acc : List (String × α), nodupKeys acc = true →
      nodupKeys (xs.foldl (fun a x => objInsert a (key x) (val x)) acc) =
        true := by
  induction xs with
  | nil => intro acc h; exact h
  | cons x t ih =>
      intro acc h
      rw [List.foldl_cons]
      exact ih _ (nodupKeys_objInsert _ _ _ h)

theorem lockFileWF_generate (genv : GenEnv) :
    lockFileWF (generateLockFile genv) = true := by
  rw [lockFileWF, generateLockFile]
  simp only [Bool.and_eq_true]
  exact ⟨⟨⟨nodupKeys_foldl_objInsert _ _ genv.taps [] rfl,
    nodupKeys_foldl_objInsert _ _ genv.formulae [] rfl⟩,
    nodupKeys_foldl_objInsert _ _ genv.casks [] rfl⟩,
    nodupKeys_foldl_objInsert _ _ genv.masApps [] rfl⟩

theorem producible_WF (d : LockFile) (h : Producible d) :
    lockFileWF d = true := by
  induction h with
  | empty => rfl
  | upsert d k name e _ ih => exact lockFileWF_upsert d k name e ih
  | remove d k name _ ih => exact lockFileWF_remove d k name ih
  | generate genv => exact lockFileWF_generate genv

/-- C2: for every lock document producible by the reconciliation engine —
the empty document, any chain of upserts and removals on a producible
document, or a freshly generated document — parsing the serialized text
gives back an equal document: `parseLockFile (serializeLockFile d) = d`,
deep equality across the format version and all four kind mappings. -/
theorem roundtrip_producible (d : LockFile) (h : Producible d) :
    parseLockFile (serializeLockFile d) = d :=
  parse_serialize_WF d (producible_WF d h)

theorem roundtrip_producible_wit :
    parseLockFile (serializeLockFile
      (upsertEntry createEmptyLockFile .brew "x" { version := "1.0" })) =
      upsertEntry createEmptyLockFile .brew "x" { version := "1.0" } :=
  roundtrip_producible _
    (Producible.upsert createEmptyLockFile .brew "x" { version := "1.0" }
      Producible.empty)

theorem parse_fallback_wit :
    jsoncParse ("not valid content at all" : String).data = none ∧
      parseLockFile "not valid content at all" = createEmptyLockFile ∧
      lockFileWF (parseLockFile "not valid content at all") = true :=
  ⟨rfl, parse_fallback "not valid content at all" (Or.inr (Or.inl rfl))⟩

theorem partial_parse_wit :
    lockFileWF docBrewX = true ∧
    (∀ x ∈ [' ', 'n', 'o', 't', 'e'], (x == '\n') = false) ∧
    parseLockFile (String.mk ('/' :: '/' :: ([' ', 'n', 'o', 't', 'e'] ++
      '\n' :: (pjson 0 (partialDocJson false true false false docBrewX) ++
        ['\n'])))) = maskSections false true false false docBrewX :=
  ⟨by decide, by decide,
    partial_parse false true false false docBrewX (by decide)
      [' ', 'n', 'o', 't', 'e'] (by decide)⟩
